import Mathlib

/-!
Verification development for the UNBOUND writing application core:
the dual-representation content model (Markdown vs rich document),
per-chapter storage with flush-then-load selection, text statistics,
and import/export guards.

Strings are modelled as `List Char` in the converter and statistics
kernels, wrapped into `String` at the component interfaces.
-/

namespace Unbound

/-- Character class of the regex `\s` as used by the panels (ASCII
interpretation): space, tab, newline, carriage return, vertical tab,
form feed. -/
def isWs (c : Char) : Bool :=
  c = ' ' || c = '\t' || c = '\n' || c = '\r' || c = Char.ofNat 11 || c = Char.ofNat 12

/-- The backquote character (inline-code delimiter). -/
def backquote : Char := Char.ofNat 96

/-- Characters that can open an inline Markdown construct. -/
def isMarkerChar (c : Char) : Bool :=
  c = '*' || c = '~' || c = backquote

/-- Boolean prefix test on character lists. -/
def isPre : List Char → List Char → Bool
  | [], _ => true
  | _ :: _, [] => false
  | a :: as, b :: bs => a = b && isPre as bs

/-- Modelled from the spec: inline node of the rich-document
representation (`RichDoc`) produced by `MarkdownHtmlConverter`.  The
repository's `core/MarkdownConverter.{hpp,cpp}` is referenced by
`WritingPanel.cpp` but absent from the sources, so the spec's §4.2
construct set (bold `**x**`, italic `*x*`, strikethrough `~~x~~`,
inline code) is modelled directly. -/
inductive Inline where
  | text (s : List Char)
  | bold (s : List Char)
  | italic (s : List Char)
  | strike (s : List Char)
  | code (s : List Char)
  deriving DecidableEq, Repr

/-- Serialize one inline node back to Markdown characters. -/
def renderInline : Inline → List Char
  | .text s => s
  | .bold s => '*' :: '*' :: (s ++ ['*', '*'])
  | .italic s => '*' :: (s ++ ['*'])
  | .strike s => '~' :: '~' :: (s ++ ['~', '~'])
  | .code s => backquote :: (s ++ [backquote])

/-- Serialize a sequence of inline nodes to Markdown characters. -/
def renderInlines : List Inline → List Char
  | [] => []
  | x :: xs => renderInline x ++ renderInlines xs

/-- Split a character list at the first occurrence of `pat`, returning
the part before the occurrence and the part after it. -/
def splitAtSub (pat : List Char) : List Char → Option (List Char × List Char)
  | [] => none
  | c :: cs =>
    if isPre pat (c :: cs) then some ([], (c :: cs).drop pat.length)
    else
      match splitAtSub pat cs with
      | some (pre, post) => some (c :: pre, post)
      | none => none

/-- Close the pending plain-text accumulator (held in reverse) in front
of an already-parsed suffix. -/
def flushRev (acc : List Char) (r : List Inline) : List Inline :=
  if acc = [] then r else .text acc.reverse :: r

/-- Modelled from the spec: inline-level Markdown scanner.  Markers that
open a supported construct consume up to the matching closing marker;
unmatched markers degrade to literal text (spec §4.2 error policy),
never dropping surrounding characters. -/
def parseInlinesGo : Nat → List Char → List Char → List Inline
  | 0, acc, cs => flushRev (cs.reverse ++ acc) []
  | _ + 1, acc, [] => flushRev acc []
  | fuel + 1, acc, c :: cs1 =>
    if c = '*' then
      if cs1.head? = some '*' then
        match splitAtSub ['*', '*'] cs1.tail with
        | some (content, rest) =>
          flushRev acc (.bold content :: parseInlinesGo fuel [] rest)
        | none => parseInlinesGo fuel ('*' :: '*' :: acc) cs1.tail
      else
        match splitAtSub ['*'] cs1 with
        | some (content, rest) =>
          flushRev acc (.italic content :: parseInlinesGo fuel [] rest)
        | none => parseInlinesGo fuel ('*' :: acc) cs1
    else if c = '~' then
      if cs1.head? = some '~' then
        match splitAtSub ['~', '~'] cs1.tail with
        | some (content, rest) =>
          flushRev acc (.strike content :: parseInlinesGo fuel [] rest)
        | none => parseInlinesGo fuel ('~' :: '~' :: acc) cs1.tail
      else parseInlinesGo fuel ('~' :: acc) cs1
    else if c = backquote then
      match splitAtSub [backquote] cs1 with
      | some (content, rest) =>
        flushRev acc (.code content :: parseInlinesGo fuel [] rest)
      | none => parseInlinesGo fuel (backquote :: acc) cs1
    else parseInlinesGo fuel (c :: acc) cs1

/-- Parse the inline structure of one line of Markdown. -/
def parseInlines (cs : List Char) : List Inline :=
  parseInlinesGo (cs.length + 1) [] cs

/-- No character of `s` can open an inline construct. -/
def markerFree (s : List Char) : Bool := s.all (fun c => !isMarkerChar c)

/-- No newline occurs in `s`. -/
def noNl (s : List Char) : Bool := s.all (fun c => !decide (c = '\n'))

/-- Is the node a plain-text node? -/
def isTextI : Inline → Bool
  | .text _ => true
  | _ => false

/-- A single well-formed inline node: nonempty content with no marker
characters and no newline. -/
def inlineOK : Inline → Bool
  | .text s => !s.isEmpty && markerFree s && noNl s
  | .bold s => !s.isEmpty && markerFree s && noNl s
  | .italic s => !s.isEmpty && markerFree s && noNl s
  | .strike s => !s.isEmpty && markerFree s && noNl s
  | .code s => !s.isEmpty && markerFree s && noNl s

/-- A well-formed inline sequence: each node well formed and no two
adjacent plain-text nodes. -/
def wfInlines : List Inline → Bool
  | [] => true
  | [x] => inlineOK x
  | x :: y :: rest => inlineOK x && !(isTextI x && isTextI y) && wfInlines (y :: rest)

/-- Does the sequence avoid starting with a plain-text node? -/
def headNotText : List Inline → Bool
  | .text _ :: _ => false
  | _ => true

/-- The fenced-code-block delimiter line. -/
def fenceChars : List Char := [backquote, backquote, backquote]

/-- The horizontal-rule line. -/
def hruleChars : List Char := ['-', '-', '-']

/-- Classification of one Markdown line. -/
inductive LineKind where
  | blank
  | fence
  | hrule
  | heading (n : Nat) (rest : List Char)
  | bullet (rest : List Char)
  | quote (rest : List Char)
  | ordered (rest : List Char)
  | plain
  deriving DecidableEq, Repr

/-- Modelled from the spec: line classifier for the block constructs of
§4.2 (headings `#`..`######`, bullet `- `, ordered `1. `, blockquote
`> `, fenced code, horizontal rule `---`); whitespace-only lines are
blank separators. -/
def classify (l : List Char) : LineKind :=
  if l.all isWs then .blank
  else if isPre fenceChars l then .fence
  else if l = hruleChars then .hrule
  else if 1 ≤ (l.takeWhile (fun c => decide (c = '#'))).length ∧
      (l.takeWhile (fun c => decide (c = '#'))).length ≤ 6 ∧
      (l.drop (l.takeWhile (fun c => decide (c = '#'))).length).head? = some ' ' then
    .heading (l.takeWhile (fun c => decide (c = '#'))).length
      (l.drop ((l.takeWhile (fun c => decide (c = '#'))).length + 1))
  else if isPre ['-', ' '] l then .bullet (l.drop 2)
  else if isPre ['>', ' '] l then .quote (l.drop 2)
  else if (l.takeWhile Char.isDigit) ≠ [] ∧
      isPre ['.', ' '] (l.drop (l.takeWhile Char.isDigit).length) then
    .ordered (l.drop ((l.takeWhile Char.isDigit).length + 2))
  else .plain

/-- Modelled from the spec: block node of the rich-document
representation, covering the §4.2 construct set. -/
inductive Block where
  | heading (level : Nat) (content : List Inline)
  | para (content : List Inline)
  | codeBlock (ls : List (List Char))
  | bullet (items : List (List Inline))
  | ordered (items : List (List Inline))
  | quote (content : List Inline)
  | hrule
  deriving DecidableEq, Repr

/-- Modelled from the spec: the rich/HTML document representation
(`RichDoc`) is abstracted as its block structure. -/
abbrev RichDoc := List Block

/-- Decimal digits of a natural number (auxiliary, fuel-driven). -/
def natToCharsAux : Nat → Nat → List Char
  | 0, _ => []
  | fuel + 1, n =>
    if n = 0 then [] else natToCharsAux fuel (n / 10) ++ [Char.ofNat (48 + n % 10)]

/-- Decimal digits of a natural number. -/
def natToChars (n : Nat) : List Char :=
  if n = 0 then ['0'] else natToCharsAux n n

/-- Lines of an ordered list, numbered from `k`. -/
def numberLines : Nat → List (List Inline) → List (List Char)
  | _, [] => []
  | k, it :: its =>
    (natToChars k ++ '.' :: ' ' :: renderInlines it) :: numberLines (k + 1) its

/-- Serialize one block to its Markdown lines. -/
def renderBlockLines : Block → List (List Char)
  | .heading n c => [List.replicate n '#' ++ ' ' :: renderInlines c]
  | .para c => [renderInlines c]
  | .codeBlock ls => fenceChars :: (ls ++ [fenceChars])
  | .bullet items => items.map (fun it => '-' :: ' ' :: renderInlines it)
  | .ordered items => numberLines 1 items
  | .quote c => ['>' :: ' ' :: renderInlines c]
  | .hrule => [hruleChars]

/-- Serialize a document to its Markdown lines, blocks separated by one
blank line. -/
def renderDocLines : List Block → List (List Char)
  | [] => []
  | [b] => renderBlockLines b
  | b :: b2 :: bs => renderBlockLines b ++ ([] :: renderDocLines (b2 :: bs))

/-- Open multi-line block being accumulated by the block parser. -/
inductive CurBlock where
  | none
  | code (ls : List (List Char))
  | bullet (items : List (List Inline))
  | ordered (items : List (List Inline))
  deriving DecidableEq, Repr

/-- Block-parser state: finished blocks plus the open block. -/
structure PState where
  done : List Block
  cur : CurBlock
  deriving DecidableEq, Repr

/-- Move the open block (if any) into the finished list. -/
def flushCur : PState → PState
  | ⟨done, .none⟩ => ⟨done, .none⟩
  | ⟨done, .code ls⟩ => ⟨done ++ [.codeBlock ls], .none⟩
  | ⟨done, .bullet items⟩ => ⟨done ++ [.bullet items], .none⟩
  | ⟨done, .ordered items⟩ => ⟨done ++ [.ordered items], .none⟩

/-- Modelled from the spec: one step of the block parser.  Inside a
fence every line is taken verbatim until the closing fence (an
unterminated fence runs to the end, §4.2 error policy); outside, the
line's classification decides the block, consecutive list lines extend
the open list, and blank lines close the open block. -/
def parseStep (st : PState) (l : List Char) : PState :=
  match st.cur with
  | .code ls =>
    if l = fenceChars then ⟨st.done ++ [.codeBlock ls], .none⟩
    else ⟨st.done, .code (ls ++ [l])⟩
  | _ =>
    match classify l with
    | .blank => flushCur st
    | .fence => ⟨(flushCur st).done, .code []⟩
    | .hrule => ⟨(flushCur st).done ++ [.hrule], .none⟩
    | .heading n r => ⟨(flushCur st).done ++ [.heading n (parseInlines r)], .none⟩
    | .quote r => ⟨(flushCur st).done ++ [.quote (parseInlines r)], .none⟩
    | .bullet r =>
      match st.cur with
      | .bullet items => ⟨st.done, .bullet (items ++ [parseInlines r])⟩
      | _ => ⟨(flushCur st).done, .bullet [parseInlines r]⟩
    | .ordered r =>
      match st.cur with
      | .ordered items => ⟨st.done, .ordered (items ++ [parseInlines r])⟩
      | _ => ⟨(flushCur st).done, .ordered [parseInlines r]⟩
    | .plain => ⟨(flushCur st).done ++ [.para (parseInlines l)], .none⟩

/-- Parse a sequence of Markdown lines into blocks. -/
def parseBlocks (L : List (List Char)) : List Block :=
  (flushCur (L.foldl parseStep ⟨[], .none⟩)).done

/-- Split characters into lines at newline characters. -/
def splitLines : List Char → List (List Char)
  | [] => [[]]
  | c :: cs =>
    if c = '\n' then [] :: splitLines cs
    else
      match splitLines cs with
      | [] => [[c]]
      | l :: ls => (c :: l) :: ls

/-- Join lines with newline characters. -/
def joinLines : List (List Char) → List Char
  | [] => []
  | [l] => l
  | l :: l2 :: ls => l ++ '\n' :: joinLines (l2 :: ls)

/-- Modelled from the spec: `markdownToRich` of §4.2 — parse canonical
Markdown into the rich-document representation. -/
def markdownToRich (md : String) : RichDoc :=
  parseBlocks (splitLines md.toList)

/-- Modelled from the spec: `richToMarkdown` of §4.2 — serialize the
rich-document representation back to canonical Markdown. -/
def richToMarkdown (d : RichDoc) : String :=
  String.mk (joinLines (renderDocLines d))

namespace MarkdownConverter

/-- Modelled from the spec: `MarkdownConverter::markdownToHtml` of the
missing `core/MarkdownConverter.cpp`, with the HTML document abstracted
as `RichDoc`. -/
def markdownToHtml (md : String) : RichDoc := markdownToRich md

/-- Modelled from the spec: `MarkdownConverter::htmlToMarkdown` of the
missing `core/MarkdownConverter.cpp`. -/
def htmlToMarkdown (d : RichDoc) : String := richToMarkdown d

end MarkdownConverter

/-- The inline sequence is a fixed point of parse-after-render. -/
def ILstable (c : List Inline) : Prop := parseInlines (renderInlines c) = c

/-- Blocks whose rendered lines re-parse to the same block. -/
def StableB : Block → Prop
  | .heading n c => 1 ≤ n ∧ n ≤ 6 ∧ ILstable c ∧ noNl (renderInlines c) = true
  | .para c => ILstable c ∧ noNl (renderInlines c) = true ∧
      classify (renderInlines c) = .plain
  | .codeBlock ls => ∀ l ∈ ls, l ≠ fenceChars ∧ noNl l = true
  | .bullet items => items ≠ [] ∧
      ∀ it ∈ items, ILstable it ∧ noNl (renderInlines it) = true
  | .ordered items => items ≠ [] ∧
      ∀ it ∈ items, ILstable it ∧ noNl (renderInlines it) = true
  | .quote c => ILstable c ∧ noNl (renderInlines c) = true
  | .hrule => True

/-- Open-block well-formedness during parsing. -/
def CurOK : CurBlock → Prop
  | .none => True
  | .code ls => ∀ l ∈ ls, l ≠ fenceChars ∧ noNl l = true
  | .bullet items => items ≠ [] ∧
      ∀ it ∈ items, ILstable it ∧ noNl (renderInlines it) = true
  | .ordered items => items ≠ [] ∧
      ∀ it ∈ items, ILstable it ∧ noNl (renderInlines it) = true

/-- Parser-state well-formedness: all emitted blocks are stable. -/
def StateOK (st : PState) : Prop :=
  (∀ b ∈ st.done, StableB b) ∧ CurOK st.cur

/-- Scanner for QString::split with regex `\s+`: a whitespace run ends
the current part and is consumed whole.  Empty parts are produced at
boundaries and later discarded (Qt::SkipEmptyParts). -/
def wsSplitGo : Nat → List Char → List Char → List (List Char)
  | 0, part, cs => [part.reverse ++ cs]
  | _ + 1, part, [] => [part.reverse]
  | fuel + 1, part, c :: cs =>
    if isWs c then part.reverse :: wsSplitGo fuel [] (cs.dropWhile isWs)
    else wsSplitGo fuel (c :: part) cs

/-- Parts of the text split at whitespace runs. -/
def qtSplitWs (cs : List Char) : List (List Char) :=
  wsSplitGo (cs.length + 1) [] cs

/-- Spec-side word count: number of maximal non-whitespace runs, counted
by their first characters.  The flag records whether a new run may start
here (start of text or previous character whitespace). -/
def countRunsGo : Bool → List Char → Nat
  | _, [] => 0
  | canStart, c :: cs =>
    (if !isWs c && canStart then 1 else 0) + countRunsGo (isWs c) cs

/-- Number of maximal non-whitespace runs. -/
def countRuns (cs : List Char) : Nat := countRunsGo true cs

/-- Modelled regex step for `\n\s*\n` at the current position: it fires
only at a newline whose following maximal whitespace run contains
another newline; the greedy `\s*` with backtracking consumes up to the
last newline of the run. -/
def matchSep : List Char → Option (List Char)
  | c :: t =>
    if c = '\n' then
      if '\n' ∈ t.takeWhile isWs then
        some ((((t.takeWhile isWs).reverse.takeWhile
            (fun x => !decide (x = '\n'))).reverse) ++
          t.drop (t.takeWhile isWs).length)
      else none
    else none
  | [] => none

/-- Scanner for QString::split with regex `\n\s*\n`: left-to-right,
non-overlapping matches separate the parts. -/
def parSplitGo : Nat → List Char → List Char → List (List Char)
  | 0, part, cs => [part.reverse ++ cs]
  | _ + 1, part, [] => [part.reverse]
  | fuel + 1, part, c :: cs =>
    match matchSep (c :: cs) with
    | some rest => part.reverse :: parSplitGo fuel [] rest
    | none => parSplitGo fuel (c :: part) cs

/-- Parts of the text split at blank-line separators. -/
def qtSplitPar (cs : List Char) : List (List Char) :=
  parSplitGo (cs.length + 1) [] cs

/-- Is the line whitespace-only? -/
def wsOnly (l : List Char) : Bool := l.all isWs

/-- Spec-side blocks: lines are grouped into maximal blocks separated by
runs of interior whitespace-only lines; the first and the last line of
the text are always block content.  The flag is true while inside a
separator run. -/
def blocksGo : Bool → List (List Char) → List (List Char) → List (List Char)
  | false, [], cur => [joinLines cur]
  | true, [], _ => []
  | false, [last], cur => [joinLines (cur ++ [last])]
  | true, [last], _ => [joinLines [last]]
  | false, l :: l2 :: ls, cur =>
    if wsOnly l then joinLines cur :: blocksGo true (l2 :: ls) []
    else blocksGo false (l2 :: ls) (cur ++ [l])
  | true, l :: l2 :: ls, _ =>
    if wsOnly l then blocksGo true (l2 :: ls) []
    else blocksGo false (l2 :: ls) [l]

/-- Maximal blocks of a line list, separated by blank lines. -/
def specBlocks : List (List Char) → List (List Char)
  | [] => []
  | l :: ls => blocksGo false ls [l]

/-- Drop a separator run: leading whitespace-only lines are consumed,
but the final line always remains. -/
def dropSepAux : List (List Char) → List (List Char)
  | [] => []
  | [last] => [last]
  | l :: l2 :: ls => if wsOnly l then dropSepAux (l2 :: ls) else l :: l2 :: ls

/-- Accumulated characters of the finished lines of the open block. -/
def curChars : List (List Char) → List Char
  | [] => []
  | l :: ls => joinLines (l :: ls) ++ ['\n']

/-- Spec-side paragraph count: non-empty maximal blocks of the line
structure, separated by blank (whitespace-only, interior) lines. -/
def specParagraphs (cs : List Char) : Nat :=
  ((specBlocks (splitLines cs)).filter (fun p => !p.isEmpty)).length

/-- Statistics displayed by the Analysis panel. -/
structure Stats where
  words : Nat
  chars : Nat
  charsNoWs : Nat
  paragraphs : Nat
  avgWordsPerParagraph : ℚ
  deriving DecidableEq, Repr

/-- `AnalysisPanel::updateStats` (src/src/AnalysisPanel.cpp:30-47): word
count by splitting on `\s+` discarding empty parts, character counts
with and without whitespace, paragraph count by splitting on `\n\s*\n`
discarding empty parts, and the zero-guarded average. -/
def updateStats (text : String) : Stats :=
  let cs := text.toList
  let wordCount := ((qtSplitWs cs).filter (fun p => !p.isEmpty)).length
  let charCount := cs.length
  let charCountNoSpaces := (cs.filter (fun c => !isWs c)).length
  let paragraphCount := ((qtSplitPar cs).filter (fun p => !p.isEmpty)).length
  { words := wordCount
    chars := charCount
    charsNoWs := charCountNoSpaces
    paragraphs := paragraphCount
    avgWordsPerParagraph :=
      if paragraphCount > 0 then (wordCount : ℚ) / (paragraphCount : ℚ) else 0 }

/-- Chapter entity (src/src/model/Chapter.{hpp,cpp}). -/
structure Chapter where
  title : String
  content : String
  deriving DecidableEq, Repr

/-- `Chapter::setTitle` with its change guard. -/
def Chapter.setTitle (t : String) (ch : Chapter) : Chapter :=
  if ch.title = t then ch else { ch with title := t }

/-- `Chapter::setContent` with its change guard. -/
def Chapter.setContent (c : String) (ch : Chapter) : Chapter :=
  if ch.content = c then ch else { ch with content := c }

/-- `Chapter::wordCount`. -/
def Chapter.wordCount (ch : Chapter) : Nat :=
  ((qtSplitWs ch.content.toList).filter (fun p => !p.isEmpty)).length

/-- `WritingPanel::EditorMode`. -/
inductive EditorMode where
  | MarkdownMode
  | RichTextMode
  deriving DecidableEq, Repr

/-- `WritingPanel` state: the current mode, the title label, the
plain-text Markdown editor buffer and the rich-text editor document. -/
structure WritingPanel where
  currentMode : EditorMode
  titleLabel : String
  markdownEditor : String
  richTextEditor : RichDoc
  deriving DecidableEq, Repr

/-- The freshly constructed panel (WritingPanel.cpp:10-33): Markdown
mode, empty editors. -/
def initWritingPanel : WritingPanel :=
  { currentMode := .MarkdownMode
    titleLabel := "Select an item to edit"
    markdownEditor := ""
    richTextEditor := [] }

/-- `WritingPanel::setContentMarkdown` (WritingPanel.cpp:63-72): set the
visible editor, converting Markdown to the rich representation when in
rich-text mode. -/
def setContentMarkdown (markdown : String) (wp : WritingPanel) : WritingPanel :=
  match wp.currentMode with
  | .MarkdownMode => { wp with markdownEditor := markdown }
  | .RichTextMode =>
    { wp with richTextEditor := MarkdownConverter.markdownToHtml markdown }

/-- `WritingPanel::getContentMarkdown` (WritingPanel.cpp:74-83): always
return canonical Markdown, converting back from the rich representation
when in rich-text mode. -/
def getContentMarkdown (wp : WritingPanel) : String :=
  match wp.currentMode with
  | .MarkdownMode => wp.markdownEditor
  | .RichTextMode => MarkdownConverter.htmlToMarkdown wp.richTextEditor

/-- `WritingPanel::setTitle`. -/
def setPanelTitle (t : String) (wp : WritingPanel) : WritingPanel :=
  { wp with titleLabel := t }

/-- `WritingPanel::syncContentOnModeSwitch` (WritingPanel.cpp:112-125). -/
def syncContentOnModeSwitch (fromMode toMode : EditorMode)
    (wp : WritingPanel) : WritingPanel :=
  if fromMode = .MarkdownMode ∧ toMode = .RichTextMode then
    { wp with richTextEditor :=
        MarkdownConverter.markdownToHtml wp.markdownEditor }
  else if fromMode = .RichTextMode ∧ toMode = .MarkdownMode then
    { wp with markdownEditor :=
        MarkdownConverter.htmlToMarkdown wp.richTextEditor }
  else wp

/-- Notifications observable from `WritingPanel`. -/
inductive PanelEvent where
  | modeChanged (m : EditorMode)
  deriving DecidableEq, Repr

/-- `WritingPanel::setEditorMode` (WritingPanel.cpp:90-110): no-op when
the mode is unchanged; otherwise record the new mode, convert the live
content between the editors, switch the visible editor and emit
`modeChanged`. -/
def setEditorMode (mode : EditorMode) (wp : WritingPanel) :
    WritingPanel × List PanelEvent :=
  if wp.currentMode = mode then (wp, [])
  else
    let oldMode := wp.currentMode
    let wp1 := { wp with currentMode := mode }
    let wp2 := syncContentOnModeSwitch oldMode mode wp1
    (wp2, [.modeChanged mode])

/-- `MainWindow` state: the chapter map, the active chapter id (the
empty string models the default-constructed QString before any
selection) and the writing panel. -/
structure MainWindow where
  chapters : List (String × Chapter)
  currentChapterId : String
  writingPanel : WritingPanel
  deriving DecidableEq, Repr

/-- The freshly constructed main window. -/
def initMainWindow : MainWindow :=
  { chapters := [], currentChapterId := "", writingPanel := initWritingPanel }

/-- `QHash::contains`. -/
def hashContains (h : List (String × Chapter)) (k : String) : Bool :=
  h.any (fun kv => kv.1 = k)

/-- `QHash` lookup. -/
def hashGet (h : List (String × Chapter)) (k : String) : Option Chapter :=
  match h with
  | [] => none
  | kv :: t => if kv.1 = k then some kv.2 else hashGet t k

/-- `QHash` insert-or-replace (`chapters[id] = chapter`, and in-place
mutation of the stored `Chapter*`). -/
def hashSet (h : List (String × Chapter)) (k : String) (v : Chapter) :
    List (String × Chapter) :=
  match h with
  | [] => [(k, v)]
  | kv :: t => if kv.1 = k then (k, v) :: t else kv :: hashSet t k v

/-- `MainWindow::saveCurrentChapter` (MainWindow.cpp:399-407): no-op
without a valid active chapter; otherwise store the canonical Markdown
of the editor into the active chapter. -/
def saveCurrentChapter (mw : MainWindow) : MainWindow :=
  if mw.currentChapterId = "" ∨
      hashContains mw.chapters mw.currentChapterId = false then mw
  else
    match hashGet mw.chapters mw.currentChapterId with
    | none => mw
    | some ch =>
      let updated := Chapter.setContent (getContentMarkdown mw.writingPanel) ch
      { mw with chapters := hashSet mw.chapters mw.currentChapterId updated }

/-- The `contentChanged` handler (MainWindow.cpp:369-373): refresh the
statistics displays (pure) and autosave the active chapter. -/
def onContentChanged (mw : MainWindow) : MainWindow :=
  saveCurrentChapter mw

/-- A user edit typed into the Markdown editor; `textChanged` fires
`contentChanged`, which autosaves. -/
def editMarkdownText (s : String) (mw : MainWindow) : MainWindow :=
  onContentChanged
    { mw with writingPanel := { mw.writingPanel with markdownEditor := s } }

/-- A user edit performed in the rich-text editor. -/
def editRichText (d : RichDoc) (mw : MainWindow) : MainWindow :=
  onContentChanged
    { mw with writingPanel := { mw.writingPanel with richTextEditor := d } }

/-- `MainWindow::onStructureItemSelected` (MainWindow.cpp:379-397):
flush the previously active chapter, set the active id, create the
chapter on demand, then load its title and content into the panel; the
programmatic `setContentMarkdown` fires `textChanged`, autosaving once
more. -/
def onStructureItemSelected (id : String) (mw : MainWindow) : MainWindow :=
  let mw1 := saveCurrentChapter mw
  let mw2 := { mw1 with currentChapterId := id }
  let mw3 :=
    if hashContains mw2.chapters id then mw2
    else
      let fresh := Chapter.setTitle id { title := "", content := "" }
      { mw2 with chapters := hashSet mw2.chapters id fresh }
  let ch := (hashGet mw3.chapters id).getD { title := "", content := "" }
  let wp1 := setPanelTitle ch.title mw3.writingPanel
  let wp2 := setContentMarkdown ch.content wp1
  onContentChanged { mw3 with writingPanel := wp2 }

/-- UI effects of the import/export handlers. -/
inductive UiEffect where
  | warning (title msg : String)
  | info (title msg : String)
  | fileWrite (path content : String)
  deriving DecidableEq, Repr

/-- `MainWindow::onImportMarkdown` (MainWindow.cpp:417-437): `chosenFile`
is the file-dialog result, `openOk` whether the file opened, `fileText`
its contents.  The imported text goes only to the panel, plus the
autosave fired by `textChanged`. -/
def onImportMarkdown (chosenFile : Option String) (openOk : Bool)
    (fileText : String) (mw : MainWindow) : MainWindow × List UiEffect :=
  match chosenFile with
  | none => (mw, [])
  | some _ =>
    if !openOk then
      (mw, [.warning "Import Error" "Could not open file for reading."])
    else
      let mw1 :=
        { mw with writingPanel := setContentMarkdown fileText mw.writingPanel }
      let mw2 := onContentChanged mw1
      (mw2, [.info "Import Complete" "Markdown file imported successfully."])

/-- `MainWindow::onExportMarkdown` (MainWindow.cpp:439-463). -/
def onExportMarkdown (chosenFile : Option String) (openOk : Bool)
    (mw : MainWindow) : List UiEffect :=
  let markdown := getContentMarkdown mw.writingPanel
  if markdown = "" then [.warning "Export Error" "No content to export."]
  else
    match chosenFile with
    | none => []
    | some path =>
      if !openOk then
        [.warning "Export Error" "Could not open file for writing."]
      else
        [.fileWrite path markdown,
          .info "Export Complete" "Content exported to Markdown successfully."]

/-- Well-formed block: the generator grammar of the supported Markdown
construct set (§4.2). -/
def wfBlock : Block → Bool
  | .heading n c => decide (1 ≤ n) && decide (n ≤ 6) && wfInlines c
  | .para c => wfInlines c && decide (classify (renderInlines c) = .plain)
  | .codeBlock ls => ls.all (fun l => (!decide (l = fenceChars)) && noNl l)
  | .bullet items => !items.isEmpty && items.all wfInlines
  | .ordered items => !items.isEmpty && items.all wfInlines
  | .quote c => wfInlines c
  | .hrule => true

/-- Well-formed document. -/
def wfDoc (d : List Block) : Bool := d.all wfBlock

/-- The mode-independent normal form of the live editor content: the
rich-document value after one pass of the converter pair, used to state
equality of content up to whitespace/formatting normalization. -/
def panelContentNormalized (wp : WritingPanel) : RichDoc :=
  match wp.currentMode with
  | .MarkdownMode => markdownToRich wp.markdownEditor
  | .RichTextMode => markdownToRich (richToMarkdown wp.richTextEditor)

theorem isPre_eq_append {p l : List Char} (h : isPre p l = true) :
    l = p ++ l.drop p.length := by
  induction p generalizing l with
  | nil => simp
  | cons a as ih =>
    cases l with
    | nil => simp [isPre] at h
    | cons b bs =>
      simp only [isPre, Bool.and_eq_true, decide_eq_true_eq] at h
      obtain ⟨rfl, h2⟩ := h
      simpa using ih h2

theorem isPre_append_self (p r : List Char) : isPre p (p ++ r) = true := by
  induction p with
  | nil => simp [isPre]
  | cons a as ih => simp [isPre, ih]

theorem splitAtSub_eq_append {pat s pre post : List Char}
    (h : splitAtSub pat s = some (pre, post)) : s = pre ++ pat ++ post := by
  induction s generalizing pre with
  | nil => simp [splitAtSub] at h
  | cons c cs ih =>
    rw [splitAtSub] at h
    split at h
    · next hp =>
      simp only [Option.some.injEq, Prod.mk.injEq] at h
      obtain ⟨rfl, rfl⟩ := h
      have := isPre_eq_append hp
      simpa using this
    · next hp =>
      cases hrec : splitAtSub pat cs with
      | none => rw [hrec] at h; simp at h
      | some pp =>
        obtain ⟨pre1, post1⟩ := pp
        rw [hrec] at h
        simp only [Option.some.injEq, Prod.mk.injEq] at h
        obtain ⟨rfl, rfl⟩ := h
        have := ih hrec
        simp [this]

theorem splitAtSub_first {p0 : Char} {pt : List Char}
    (hp : isMarkerChar p0 = true) :
    ∀ (s rest : List Char), (∀ c ∈ s, isMarkerChar c = false) →
    splitAtSub (p0 :: pt) (s ++ (p0 :: pt) ++ rest) = some (s, rest) := by
  intro s
  induction s with
  | nil =>
    intro rest _
    rw [List.nil_append, List.cons_append, splitAtSub]
    have hpre : isPre (p0 :: pt) (p0 :: (pt ++ rest)) = true := by
      have := isPre_append_self (p0 :: pt) rest
      rwa [List.cons_append] at this
    rw [if_pos hpre]
    simp
  | cons a as ih =>
    intro rest hmf
    have ha : isMarkerChar a = false := hmf a (by simp)
    have hne : p0 ≠ a := by
      intro hEq
      rw [hEq, ha] at hp
      simp at hp
    have hrec := ih rest (fun c hc => hmf c (by simp [hc]))
    rw [List.cons_append, List.cons_append, splitAtSub]
    have hnp : isPre (p0 :: pt) (a :: (as ++ (p0 :: pt ++ rest))) = false := by
      simp only [isPre, Bool.and_eq_false_iff, decide_eq_false_iff_not]
      exact Or.inl hne
    simp only [List.append_assoc, List.cons_append] at hnp hrec ⊢
    rw [hnp]
    simp only [Bool.false_eq_true, if_false]
    rw [hrec]

theorem renderInlines_flushRev (acc : List Char) (r : List Inline) :
    renderInlines (flushRev acc r) = acc.reverse ++ renderInlines r := by
  unfold flushRev
  split
  · next h => simp [h]
  · simp [renderInlines, renderInline]

theorem head?_some_cons {cs : List Char} {a : Char} (h : cs.head? = some a) :
    cs = a :: cs.tail := by
  cases cs with
  | nil => simp at h
  | cons b t => simp only [List.head?_cons, Option.some.injEq] at h; simp [h]

/-- The inline renderer is a left inverse of the inline scanner: parsing
any character sequence and re-rendering it reproduces the input exactly.
This is the graceful-degradation guarantee of spec §4.2: nothing is ever
lost or corrupted, whatever the input. -/
theorem renderInlines_parseInlinesGo :
    ∀ (fuel : Nat) (acc cs : List Char),
    renderInlines (parseInlinesGo fuel acc cs) = acc.reverse ++ cs := by
  intro fuel
  induction fuel with
  | zero =>
    intro acc cs
    rw [parseInlinesGo, renderInlines_flushRev]
    simp [renderInlines]
  | succ fuel ih =>
    intro acc cs
    cases cs with
    | nil =>
      rw [parseInlinesGo, renderInlines_flushRev]
      simp [renderInlines]
    | cons c cs1 =>
      rw [parseInlinesGo]
      by_cases hc : c = '*'
      · rw [if_pos hc]
        by_cases hh : cs1.head? = some '*'
        · rw [if_pos hh]
          cases hsp : splitAtSub ['*', '*'] cs1.tail with
          | some pp =>
            obtain ⟨content, rest⟩ := pp
            have hdec := splitAtSub_eq_append hsp
            rw [renderInlines_flushRev]
            simp only [renderInlines, renderInline, ih]
            rw [head?_some_cons hh, hdec, hc]
            simp
          | none =>
            rw [ih]
            rw [head?_some_cons hh, hc]
            simp
        · rw [if_neg hh]
          cases hsp : splitAtSub ['*'] cs1 with
          | some pp =>
            obtain ⟨content, rest⟩ := pp
            have hdec := splitAtSub_eq_append hsp
            rw [renderInlines_flushRev]
            simp only [renderInlines, renderInline, ih]
            rw [hdec, hc]
            simp
          | none =>
            rw [ih, hc]
            simp
      · rw [if_neg hc]
        by_cases ht : c = '~'
        · rw [if_pos ht]
          by_cases hh : cs1.head? = some '~'
          · rw [if_pos hh]
            cases hsp : splitAtSub ['~', '~'] cs1.tail with
            | some pp =>
              obtain ⟨content, rest⟩ := pp
              have hdec := splitAtSub_eq_append hsp
              rw [renderInlines_flushRev]
              simp only [renderInlines, renderInline, ih]
              rw [head?_some_cons hh, hdec, ht]
              simp
            | none =>
              rw [ih]
              rw [head?_some_cons hh, ht]
              simp
          · rw [if_neg hh, ih, ht]
            simp
        · rw [if_neg ht]
          by_cases hb : c = backquote
          · rw [if_pos hb]
            cases hsp : splitAtSub [backquote] cs1 with
            | some pp =>
              obtain ⟨content, rest⟩ := pp
              have hdec := splitAtSub_eq_append hsp
              rw [renderInlines_flushRev]
              simp only [renderInlines, renderInline, ih]
              rw [hdec, hb]
              simp
            | none =>
              rw [ih, hb]
              simp
          · rw [if_neg hb, ih]
            simp

/-- Exact inline round trip: rendering the parse of any character list
gives back the list itself. -/
theorem renderInlines_parseInlines (cs : List Char) :
    renderInlines (parseInlines cs) = cs := by
  rw [parseInlines, renderInlines_parseInlinesGo]
  simp

theorem markerFree_mem {s : List Char} (h : markerFree s = true) :
    ∀ c ∈ s, isMarkerChar c = false := by
  intro c hc
  have := List.all_eq_true.mp h c hc
  simpa using this

theorem wfInlines_head {x : Inline} {xs : List Inline}
    (h : wfInlines (x :: xs) = true) : inlineOK x = true := by
  cases xs with
  | nil => simpa [wfInlines] using h
  | cons y rest =>
    rw [wfInlines] at h
    simp only [Bool.and_eq_true] at h
    exact h.1.1

theorem wfInlines_tail {x : Inline} {xs : List Inline}
    (h : wfInlines (x :: xs) = true) : wfInlines xs = true := by
  cases xs with
  | nil => rfl
  | cons y rest =>
    rw [wfInlines] at h
    simp only [Bool.and_eq_true] at h
    exact h.2

theorem wfInlines_adj {x y : Inline} {rest : List Inline}
    (h : wfInlines (x :: y :: rest) = true) : (isTextI x && isTextI y) = false := by
  rw [wfInlines] at h
  simp only [Bool.and_eq_true, Bool.not_eq_true'] at h
  exact h.1.2

theorem headNotText_of_not_text {y : Inline} {r : List Inline}
    (h : isTextI y = false) : headNotText (y :: r) = true := by
  cases y <;> simp [headNotText, isTextI] at h ⊢

/-- Accumulation: marker-free characters are consumed one by one into
the pending-text accumulator. -/
theorem parseInlinesGo_accum :
    ∀ (t : List Char), (∀ c ∈ t, isMarkerChar c = false) →
    ∀ (fuel : Nat), t.length ≤ fuel → ∀ (acc rest : List Char),
    parseInlinesGo fuel acc (t ++ rest) =
      parseInlinesGo (fuel - t.length) (t.reverse ++ acc) rest := by
  intro t
  induction t with
  | nil => intro _ fuel _ acc rest; simp
  | cons c t1 ih =>
    intro hmf fuel hlen acc rest
    cases fuel with
    | zero => simp at hlen
    | succ f =>
      have hc : isMarkerChar c = false := hmf c (by simp)
      have hcs : c ≠ '*' ∧ c ≠ '~' ∧ c ≠ backquote := by
        simp only [isMarkerChar, Bool.or_eq_false_iff, decide_eq_false_iff_not] at hc
        exact ⟨hc.1.1, hc.1.2, hc.2⟩
      rw [List.cons_append, parseInlinesGo,
        if_neg hcs.1, if_neg hcs.2.1, if_neg hcs.2.2]
      have hrec := ih (fun d hd => hmf d (by simp [hd])) f (by simpa using hlen)
        (c :: acc) rest
      rw [hrec]
      simp [Nat.succ_sub_succ]

theorem flushRev_nil (r : List Inline) : flushRev [] r = r := by
  simp [flushRev]

theorem flushRev_ne {acc : List Char} (h : acc ≠ []) (r : List Inline) :
    flushRev acc r = .text acc.reverse :: r := by
  simp [flushRev, h]

/-- Parsing the rendering of a well-formed inline sequence recovers the
sequence: the constructive half of the §4.2 round-trip property at the
inline level. -/
theorem parseInlinesGo_render :
    ∀ (fuel : Nat) (l : List Inline), wfInlines l = true →
    (renderInlines l).length < fuel →
    ((headNotText l = true →
       ∀ acc, parseInlinesGo fuel acc (renderInlines l) = flushRev acc l) ∧
     parseInlinesGo fuel [] (renderInlines l) = l) := by
  intro fuel
  induction fuel using Nat.strong_induction_on with
  | _ fuel ih =>
    intro l hwf hlen
    have hfuel : ∃ f, fuel = f + 1 := by
      cases fuel with
      | zero => omega
      | succ f => exact ⟨f, rfl⟩
    obtain ⟨f, rfl⟩ := hfuel
    have h1 : headNotText l = true →
        ∀ acc, parseInlinesGo (f + 1) acc (renderInlines l) = flushRev acc l := by
      intro hh acc
      cases l with
      | nil => rw [renderInlines, parseInlinesGo]
      | cons x l2 =>
        have hxok := wfInlines_head hwf
        have hl2 : wfInlines l2 = true := wfInlines_tail hwf
        cases x with
        | text t => simp [headNotText] at hh
        | bold b =>
          obtain ⟨hbne, hbmf, -⟩ : b.isEmpty = false ∧ markerFree b = true ∧ noNl b = true := by
            simp only [inlineOK, Bool.and_eq_true, Bool.not_eq_true'] at hxok
            exact ⟨hxok.1.1, hxok.1.2, hxok.2⟩
          have hsplit : splitAtSub ['*', '*'] (b ++ '*' :: '*' :: renderInlines l2) =
              some (b, renderInlines l2) := by
            have := @splitAtSub_first '*' ['*'] (by decide)
              b (renderInlines l2) (markerFree_mem hbmf)
            simpa using this
          have hlen2 : (renderInlines l2).length < f := by
            simp only [renderInlines, renderInline] at hlen
            simp only [List.length_cons, List.length_append] at hlen
            omega
          have hrec := (ih f (by omega) l2 hl2 hlen2).2
          simp only [renderInlines, renderInline, List.cons_append, List.append_assoc,
            List.nil_append]
          rw [parseInlinesGo, if_pos rfl]
          simp only [List.head?_cons, List.tail_cons, if_true]
          rw [hsplit]
          simp only [hrec]
        | italic i =>
          obtain ⟨hbne, hbmf, -⟩ : i.isEmpty = false ∧ markerFree i = true ∧ noNl i = true := by
            simp only [inlineOK, Bool.and_eq_true, Bool.not_eq_true'] at hxok
            exact ⟨hxok.1.1, hxok.1.2, hxok.2⟩
          obtain ⟨c0, i1, rfl⟩ : ∃ c0 i1, i = c0 :: i1 := by
            cases i with
            | nil => simp at hbne
            | cons c0 i1 => exact ⟨c0, i1, rfl⟩
          have hc0 : isMarkerChar c0 = false := markerFree_mem hbmf c0 (by simp)
          have hc0s : c0 ≠ '*' := by
            intro hEq; rw [hEq] at hc0; simp [isMarkerChar] at hc0
          have hsplit : splitAtSub ['*'] ((c0 :: i1) ++ '*' :: renderInlines l2) =
              some (c0 :: i1, renderInlines l2) := by
            have := @splitAtSub_first '*' [] (by decide)
              (c0 :: i1) (renderInlines l2) (markerFree_mem hbmf)
            simpa using this
          have hlen2 : (renderInlines l2).length < f := by
            simp only [renderInlines, renderInline] at hlen
            simp only [List.length_cons, List.length_append] at hlen
            omega
          have hrec := (ih f (by omega) l2 hl2 hlen2).2
          simp only [renderInlines, renderInline, List.cons_append, List.append_assoc,
            List.nil_append]
          rw [parseInlinesGo, if_pos rfl]
          simp only [List.head?_cons]
          rw [if_neg (by simp [hc0s])]
          simp only [List.cons_append] at hsplit
          rw [hsplit]
          simp only [hrec]
        | strike s =>
          obtain ⟨hbne, hbmf, -⟩ : s.isEmpty = false ∧ markerFree s = true ∧ noNl s = true := by
            simp only [inlineOK, Bool.and_eq_true, Bool.not_eq_true'] at hxok
            exact ⟨hxok.1.1, hxok.1.2, hxok.2⟩
          have hsplit : splitAtSub ['~', '~'] (s ++ '~' :: '~' :: renderInlines l2) =
              some (s, renderInlines l2) := by
            have := @splitAtSub_first '~' ['~'] (by decide)
              s (renderInlines l2) (markerFree_mem hbmf)
            simpa using this
          have hlen2 : (renderInlines l2).length < f := by
            simp only [renderInlines, renderInline] at hlen
            simp only [List.length_cons, List.length_append] at hlen
            omega
          have hrec := (ih f (by omega) l2 hl2 hlen2).2
          simp only [renderInlines, renderInline, List.cons_append, List.append_assoc,
            List.nil_append]
          rw [parseInlinesGo, if_neg (by decide), if_pos rfl]
          simp only [List.head?_cons, List.tail_cons, if_true]
          rw [hsplit]
          simp only [hrec]
        | code s =>
          obtain ⟨hbne, hbmf, -⟩ : s.isEmpty = false ∧ markerFree s = true ∧ noNl s = true := by
            simp only [inlineOK, Bool.and_eq_true, Bool.not_eq_true'] at hxok
            exact ⟨hxok.1.1, hxok.1.2, hxok.2⟩
          have hsplit : splitAtSub [backquote] (s ++ backquote :: renderInlines l2) =
              some (s, renderInlines l2) := by
            have := @splitAtSub_first backquote [] (by decide)
              s (renderInlines l2) (markerFree_mem hbmf)
            simpa using this
          have hlen2 : (renderInlines l2).length < f := by
            simp only [renderInlines, renderInline] at hlen
            simp only [List.length_cons, List.length_append] at hlen
            omega
          have hrec := (ih f (by omega) l2 hl2 hlen2).2
          simp only [renderInlines, renderInline, List.cons_append, List.append_assoc,
            List.nil_append]
          rw [parseInlinesGo, if_neg (by decide), if_neg (by decide), if_pos rfl]
          simp only [List.cons_append] at hsplit
          rw [hsplit]
          simp only [hrec]
    refine ⟨h1, ?_⟩
    cases l with
    | nil => exact (h1 rfl []).trans (flushRev_nil [])
    | cons x l2 =>
      cases hx : isTextI x with
      | false =>
        have hh : headNotText (x :: l2) = true := headNotText_of_not_text hx
        exact (h1 hh []).trans (flushRev_nil _)
      | true =>
        obtain ⟨t, rfl⟩ : ∃ t, x = .text t := by
          cases x <;> first
            | exact ⟨_, rfl⟩
            | simp [isTextI] at hx
        have hxok := wfInlines_head hwf
        have hl2 : wfInlines l2 = true := wfInlines_tail hwf
        obtain ⟨htne, htmf, -⟩ : t.isEmpty = false ∧ markerFree t = true ∧ noNl t = true := by
          simp only [inlineOK, Bool.and_eq_true, Bool.not_eq_true'] at hxok
          exact ⟨hxok.1.1, hxok.1.2, hxok.2⟩
        have htne2 : t ≠ [] := by
          intro hEq; rw [hEq] at htne; simp at htne
        have htlen : 1 ≤ t.length := by
          cases t with
          | nil => exact absurd rfl htne2
          | cons _ _ => simp
        have hlenS : (renderInlines (Inline.text t :: l2)).length =
            t.length + (renderInlines l2).length := by
          simp [renderInlines, renderInline]
        have haccum := parseInlinesGo_accum t (markerFree_mem htmf) (f + 1)
          (by omega) [] (renderInlines l2)
        have hh2 : headNotText l2 = true := by
          cases l2 with
          | nil => rfl
          | cons y r =>
            have hadj := wfInlines_adj hwf
            simp only [isTextI, Bool.true_and] at hadj
            exact headNotText_of_not_text hadj
        have hlen2 : (renderInlines l2).length < f + 1 - t.length := by omega
        have hrec := (ih (f + 1 - t.length) (by omega) l2 hl2 hlen2).1 hh2
          (t.reverse ++ [])
        have hshape : renderInlines (Inline.text t :: l2) = t ++ renderInlines l2 := by
          simp [renderInlines, renderInline]
        rw [hshape, haccum, hrec, flushRev_ne (by simpa using htne2)]
        simp

/-- Parsing the rendering of a well-formed inline sequence recovers the
sequence. -/
theorem parseInlines_renderInlines {l : List Inline} (h : wfInlines l = true) :
    parseInlines (renderInlines l) = l := by
  rw [parseInlines]
  exact (parseInlinesGo_render ((renderInlines l).length + 1) l h (by omega)).2

theorem takeWhile_append_not {p : Char → Bool} :
    ∀ (a : List Char) (c : Char) (r : List Char),
    (∀ x ∈ a, p x = true) → p c = false →
    (a ++ c :: r).takeWhile p = a := by
  intro a
  induction a with
  | nil => intro c r _ hc; simp [List.takeWhile_cons, hc]
  | cons x a1 ih =>
    intro c r ha hc
    have hx : p x = true := ha x (by simp)
    simp only [List.cons_append, List.takeWhile_cons, hx, if_true]
    rw [ih c r (fun y hy => ha y (by simp [hy])) hc]

theorem drop_append_left (a r : List Char) : (a ++ r).drop a.length = r :=
  List.drop_left a r

theorem isDigit_ne {c x : Char} (h : c.isDigit = true) (hx : x.isDigit = false) :
    c ≠ x := by
  intro hEq
  rw [hEq, hx] at h
  simp at h

theorem isWs_false_of_isDigit {c : Char} (h : c.isDigit = true) : isWs c = false := by
  have h1 : c ≠ ' ' := isDigit_ne h (by decide)
  have h2 : c ≠ '\t' := isDigit_ne h (by decide)
  have h3 : c ≠ '\n' := isDigit_ne h (by decide)
  have h4 : c ≠ '\r' := isDigit_ne h (by decide)
  have h5 : c ≠ Char.ofNat 11 := isDigit_ne h (by decide)
  have h6 : c ≠ Char.ofNat 12 := isDigit_ne h (by decide)
  simp [isWs, h1, h2, h3, h4, h5, h6]

theorem classify_blankLine : classify [] = .blank := by decide

theorem classify_fenceLine : classify fenceChars = .fence := by decide

theorem classify_hruleLine : classify hruleChars = .hrule := by decide

theorem classify_headingLine (n : Nat) (X : List Char) (h1 : 1 ≤ n) (h6 : n ≤ 6) :
    classify (List.replicate n '#' ++ ' ' :: X) = .heading n X := by
  obtain ⟨m, rfl⟩ : ∃ m, n = m + 1 := ⟨n - 1, by omega⟩
  have hrep : List.replicate (m + 1) '#' = '#' :: List.replicate m '#' :=
    List.replicate_succ '#' m
  have htw : ((List.replicate (m + 1) '#' ++ ' ' :: X).takeWhile
      (fun c => decide (c = '#'))) = List.replicate (m + 1) '#' := by
    refine takeWhile_append_not _ _ _ ?_ (by decide)
    intro x hx
    have := List.eq_of_mem_replicate hx
    simp [this]
  have hdropn : (List.replicate (m + 1) '#' ++ ' ' :: X).drop (m + 1) = ' ' :: X := by
    have := drop_append_left (List.replicate (m + 1) '#') (' ' :: X)
    rwa [List.length_replicate] at this
  have hblank : ((List.replicate (m + 1) '#' ++ ' ' :: X).all isWs) = false := by
    rw [hrep, List.cons_append, List.all_cons]
    simp [isWs]
  have hfence : isPre fenceChars (List.replicate (m + 1) '#' ++ ' ' :: X) = false := by
    rw [hrep, List.cons_append]
    simp only [fenceChars, isPre]
    have hd : (decide (backquote = '#')) = false := by decide
    rw [hd, Bool.false_and]
  have hneq : List.replicate (m + 1) '#' ++ ' ' :: X ≠ hruleChars := by
    rw [hrep, List.cons_append, hruleChars]
    intro hEq
    have := List.head_eq_of_cons_eq hEq
    simp at this
  have hcond : 1 ≤ ((List.replicate (m + 1) '#' ++ ' ' :: X).takeWhile
        (fun c => decide (c = '#'))).length ∧
      ((List.replicate (m + 1) '#' ++ ' ' :: X).takeWhile
        (fun c => decide (c = '#'))).length ≤ 6 ∧
      ((List.replicate (m + 1) '#' ++ ' ' :: X).drop
        ((List.replicate (m + 1) '#' ++ ' ' :: X).takeWhile
          (fun c => decide (c = '#'))).length).head? = some ' ' := by
    rw [htw, List.length_replicate, hdropn]
    exact ⟨by omega, h6, rfl⟩
  unfold classify
  rw [if_neg (by simp [hblank]), if_neg (by simp [hfence]), if_neg hneq, if_pos hcond]
  rw [htw, List.length_replicate]
  have hdrop2 : (List.replicate (m + 1) '#' ++ ' ' :: X).drop (m + 1 + 1) = X := by
    have h0 : (List.replicate (m + 1) '#' ++ ' ' :: X).drop (m + 1 + 1) =
        ((List.replicate (m + 1) '#' ++ ' ' :: X).drop (m + 1)).drop 1 := by
      rw [List.drop_drop]
    rw [h0, hdropn]
    simp
  rw [hdrop2]

theorem classify_bulletLine (X : List Char) :
    classify ('-' :: ' ' :: X) = .bullet X := by
  have hblank : (('-' :: ' ' :: X).all isWs) = false := by
    rw [List.all_cons]
    simp [isWs]
  have hfence : isPre fenceChars ('-' :: ' ' :: X) = false := by
    simp only [fenceChars, isPre]
    have hd : (decide (backquote = '-')) = false := by decide
    rw [hd, Bool.false_and]
  have hneq : '-' :: ' ' :: X ≠ hruleChars := by
    rw [hruleChars]
    intro hEq
    have := List.head_eq_of_cons_eq (List.tail_eq_of_cons_eq hEq)
    simp at this
  have hhd : (1 ≤ (('-' :: ' ' :: X).takeWhile (fun c => decide (c = '#'))).length ∧
      (('-' :: ' ' :: X).takeWhile (fun c => decide (c = '#'))).length ≤ 6 ∧
      (('-' :: ' ' :: X).drop
        (('-' :: ' ' :: X).takeWhile (fun c => decide (c = '#'))).length).head? =
        some ' ') = False := by
    simp [List.takeWhile_cons]
  unfold classify
  rw [if_neg (by simp [hblank]), if_neg (by simp [hfence]), if_neg hneq,
    if_neg (by simp [hhd]), if_pos (by simp [isPre] : isPre ['-', ' '] ('-' :: ' ' :: X) = true)]
  simp

theorem classify_quoteLine (X : List Char) :
    classify ('>' :: ' ' :: X) = .quote X := by
  have hblank : (('>' :: ' ' :: X).all isWs) = false := by
    rw [List.all_cons]
    simp [isWs]
  have hfence : isPre fenceChars ('>' :: ' ' :: X) = false := by
    simp only [fenceChars, isPre]
    have hd : (decide (backquote = '>')) = false := by decide
    rw [hd, Bool.false_and]
  have hneq : '>' :: ' ' :: X ≠ hruleChars := by
    rw [hruleChars]
    intro hEq
    have := List.head_eq_of_cons_eq hEq
    simp at this
  have hhd : (1 ≤ (('>' :: ' ' :: X).takeWhile (fun c => decide (c = '#'))).length ∧
      (('>' :: ' ' :: X).takeWhile (fun c => decide (c = '#'))).length ≤ 6 ∧
      (('>' :: ' ' :: X).drop
        (('>' :: ' ' :: X).takeWhile (fun c => decide (c = '#'))).length).head? =
        some ' ') = False := by
    simp [List.takeWhile_cons]
  have hbul : isPre ['-', ' '] ('>' :: ' ' :: X) = false := by
    simp only [isPre]
    have hd : (decide (('-' : Char) = '>')) = false := by decide
    rw [hd, Bool.false_and]
  unfold classify
  rw [if_neg (by simp [hblank]), if_neg (by simp [hfence]), if_neg hneq,
    if_neg (by simp [hhd]), if_neg (by simp [hbul]),
    if_pos (by simp [isPre] : isPre ['>', ' '] ('>' :: ' ' :: X) = true)]
  simp

theorem classify_orderedLine (c0 : Char) (d1 X : List Char)
    (hd : ∀ c ∈ c0 :: d1, c.isDigit = true) :
    classify (c0 :: (d1 ++ '.' :: ' ' :: X)) = .ordered X := by
  have hc0 : c0.isDigit = true := hd c0 (by simp)
  have hq2 : (decide (c0 = '#')) = false := by
    simp only [decide_eq_false_iff_not]
    exact isDigit_ne hc0 (by decide)
  have htw0 : (List.takeWhile Char.isDigit (c0 :: (d1 ++ '.' :: ' ' :: X))) =
      c0 :: d1 := by
    have := @takeWhile_append_not Char.isDigit (c0 :: d1) '.' (' ' :: X)
      hd (by decide)
    rwa [List.cons_append] at this
  have hdropn : (c0 :: (d1 ++ '.' :: ' ' :: X)).drop (c0 :: d1).length =
      '.' :: ' ' :: X := by
    have := drop_append_left (c0 :: d1) ('.' :: ' ' :: X)
    rwa [List.cons_append] at this
  have hnblank : ¬((c0 :: (d1 ++ '.' :: ' ' :: X)).all isWs = true) := by
    simp [List.all_cons, isWs_false_of_isDigit hc0]
  have hnfence : ¬(isPre fenceChars (c0 :: (d1 ++ '.' :: ' ' :: X)) = true) := by
    have hq : (decide (backquote = c0)) = false := by
      simp only [decide_eq_false_iff_not]
      exact fun hEq => (isDigit_ne hc0 (by decide)) hEq.symm
    simp only [fenceChars, isPre]
    simp [hq]
  have hneq : ¬(c0 :: (d1 ++ '.' :: ' ' :: X) = hruleChars) := by
    rw [hruleChars]
    intro hEq
    exact isDigit_ne hc0 (by decide) (List.head_eq_of_cons_eq hEq)
  have hnhead : ¬(1 ≤ ((c0 :: (d1 ++ '.' :: ' ' :: X)).takeWhile
        (fun c => decide (c = '#'))).length ∧
      ((c0 :: (d1 ++ '.' :: ' ' :: X)).takeWhile
        (fun c => decide (c = '#'))).length ≤ 6 ∧
      ((c0 :: (d1 ++ '.' :: ' ' :: X)).drop
        ((c0 :: (d1 ++ '.' :: ' ' :: X)).takeWhile
          (fun c => decide (c = '#'))).length).head? = some ' ') := by
    simp [List.takeWhile_cons, hq2]
  have hnbul : ¬(isPre ['-', ' '] (c0 :: (d1 ++ '.' :: ' ' :: X)) = true) := by
    have hq : (decide (('-' : Char) = c0)) = false := by
      simp only [decide_eq_false_iff_not]
      exact fun hEq => (isDigit_ne hc0 (by decide)) hEq.symm
    simp only [isPre]
    simp [hq]
  have hnquo : ¬(isPre ['>', ' '] (c0 :: (d1 ++ '.' :: ' ' :: X)) = true) := by
    have hq : (decide (('>' : Char) = c0)) = false := by
      simp only [decide_eq_false_iff_not]
      exact fun hEq => (isDigit_ne hc0 (by decide)) hEq.symm
    simp only [isPre]
    simp [hq]
  have hcond : ((c0 :: (d1 ++ '.' :: ' ' :: X)).takeWhile Char.isDigit) ≠ [] ∧
      isPre ['.', ' '] ((c0 :: (d1 ++ '.' :: ' ' :: X)).drop
        ((c0 :: (d1 ++ '.' :: ' ' :: X)).takeWhile Char.isDigit).length) = true := by
    rw [htw0, hdropn]
    exact ⟨by simp, by simp [isPre]⟩
  unfold classify
  rw [if_neg hnblank, if_neg hnfence, if_neg hneq, if_neg hnhead, if_neg hnbul,
    if_neg hnquo, if_pos hcond]
  rw [htw0]
  have hdrop2 : (c0 :: (d1 ++ '.' :: ' ' :: X)).drop ((c0 :: d1).length + 2) = X := by
    have h0 : (c0 :: (d1 ++ '.' :: ' ' :: X)).drop ((c0 :: d1).length + 2) =
        ((c0 :: (d1 ++ '.' :: ' ' :: X)).drop (c0 :: d1).length).drop 2 := by
      rw [List.drop_drop]
    rw [h0, hdropn]
    simp
  rw [hdrop2]

theorem natToCharsAux_digits :
    ∀ (fuel n : Nat), ∀ c ∈ natToCharsAux fuel n, c.isDigit = true := by
  intro fuel
  induction fuel with
  | zero => intro n c hc; simp [natToCharsAux] at hc
  | succ f ih =>
    intro n c hc
    rw [natToCharsAux] at hc
    split at hc
    · simp at hc
    · rw [List.mem_append] at hc
      cases hc with
      | inl h => exact ih _ c h
      | inr h =>
        simp only [List.mem_singleton] at h
        subst h
        have hm : n % 10 < 10 := Nat.mod_lt _ (by omega)
        generalize hg : n % 10 = r at hm
        interval_cases r <;> decide

theorem natToChars_digits (n : Nat) : ∀ c ∈ natToChars n, c.isDigit = true := by
  intro c hc
  rw [natToChars] at hc
  split at hc
  · simp only [List.mem_singleton] at hc
    subst hc
    decide
  · exact natToCharsAux_digits n n c hc

theorem natToChars_ne_nil (n : Nat) : natToChars n ≠ [] := by
  rw [natToChars]
  split
  · simp
  · next hn =>
    obtain ⟨f, rfl⟩ : ∃ f, n = f + 1 := ⟨n - 1, by omega⟩
    rw [natToCharsAux, if_neg hn]
    simp

theorem ILstable_parse (cs : List Char) : ILstable (parseInlines cs) := by
  show parseInlines (renderInlines (parseInlines cs)) = parseInlines cs
  rw [renderInlines_parseInlines]

theorem parseStep_blank_none (d : List Block) :
    parseStep ⟨d, .none⟩ [] = ⟨d, .none⟩ := by
  simp [parseStep, classify_blankLine, flushCur]

theorem parseStep_blank_bullet (d : List Block) (its : List (List Inline)) :
    parseStep ⟨d, .bullet its⟩ [] = ⟨d ++ [.bullet its], .none⟩ := by
  simp [parseStep, classify_blankLine, flushCur]

theorem parseStep_blank_ordered (d : List Block) (its : List (List Inline)) :
    parseStep ⟨d, .ordered its⟩ [] = ⟨d ++ [.ordered its], .none⟩ := by
  simp [parseStep, classify_blankLine, flushCur]

theorem foldl_heading (d : List Block) (n : Nat) (c : List Inline)
    (h1 : 1 ≤ n) (h6 : n ≤ 6) (hst : ILstable c) :
    List.foldl parseStep ⟨d, .none⟩ (renderBlockLines (.heading n c)) =
      ⟨d ++ [.heading n c], .none⟩ := by
  have hst2 : parseInlines (renderInlines c) = c := hst
  simp only [renderBlockLines, List.foldl_cons, List.foldl_nil]
  simp [parseStep, classify_headingLine n (renderInlines c) h1 h6, flushCur, hst2]

theorem foldl_para (d : List Block) (c : List Inline)
    (hst : ILstable c) (hcl : classify (renderInlines c) = .plain) :
    List.foldl parseStep ⟨d, .none⟩ (renderBlockLines (.para c)) =
      ⟨d ++ [.para c], .none⟩ := by
  have hst2 : parseInlines (renderInlines c) = c := hst
  simp only [renderBlockLines, List.foldl_cons, List.foldl_nil]
  simp [parseStep, hcl, flushCur, hst2]

theorem foldl_quote (d : List Block) (c : List Inline) (hst : ILstable c) :
    List.foldl parseStep ⟨d, .none⟩ (renderBlockLines (.quote c)) =
      ⟨d ++ [.quote c], .none⟩ := by
  have hst2 : parseInlines (renderInlines c) = c := hst
  simp only [renderBlockLines, List.foldl_cons, List.foldl_nil]
  simp [parseStep, classify_quoteLine (renderInlines c), flushCur, hst2]

theorem foldl_hruleBlock (d : List Block) :
    List.foldl parseStep ⟨d, .none⟩ (renderBlockLines .hrule) =
      ⟨d ++ [.hrule], .none⟩ := by
  simp only [renderBlockLines, List.foldl_cons, List.foldl_nil]
  simp [parseStep, classify_hruleLine, flushCur]

theorem foldl_code_go (d : List Block) :
    ∀ (ls acc : List (List Char)), (∀ l ∈ ls, l ≠ fenceChars) →
    List.foldl parseStep ⟨d, .code acc⟩ ls = ⟨d, .code (acc ++ ls)⟩ := by
  intro ls
  induction ls with
  | nil => intro acc _; simp
  | cons l ls1 ih =>
    intro acc hne
    rw [List.foldl_cons]
    have hstep : parseStep ⟨d, .code acc⟩ l = ⟨d, .code (acc ++ [l])⟩ := by
      simp [parseStep, hne l (by simp)]
    rw [hstep, ih (acc ++ [l]) (fun x hx => hne x (by simp [hx]))]
    simp

theorem foldl_codeBlock (d : List Block) (ls : List (List Char))
    (hne : ∀ l ∈ ls, l ≠ fenceChars) :
    List.foldl parseStep ⟨d, .none⟩ (renderBlockLines (.codeBlock ls)) =
      ⟨d ++ [.codeBlock ls], .none⟩ := by
  simp only [renderBlockLines, List.foldl_cons]
  have h1 : parseStep ⟨d, .none⟩ fenceChars = ⟨d, .code []⟩ := by
    simp [parseStep, classify_fenceLine, flushCur]
  rw [h1, List.foldl_append, foldl_code_go d ls [] hne]
  simp [parseStep]

theorem foldl_bullet_go (d : List Block) :
    ∀ (items acc : List (List Inline)), (∀ it ∈ items, ILstable it) →
    List.foldl parseStep ⟨d, .bullet acc⟩
      (items.map (fun it => '-' :: ' ' :: renderInlines it)) =
      ⟨d, .bullet (acc ++ items)⟩ := by
  intro items
  induction items with
  | nil => intro acc _; simp
  | cons it its ih =>
    intro acc hst
    have hst2 : parseInlines (renderInlines it) = it := hst it (by simp)
    simp only [List.map_cons, List.foldl_cons]
    have hstep : parseStep ⟨d, .bullet acc⟩ ('-' :: ' ' :: renderInlines it) =
        ⟨d, .bullet (acc ++ [it])⟩ := by
      simp [parseStep, classify_bulletLine, hst2]
    rw [hstep, ih (acc ++ [it]) (fun x hx => hst x (by simp [hx]))]
    simp

theorem foldl_bulletBlock (d : List Block) (items : List (List Inline))
    (hne : items ≠ []) (hst : ∀ it ∈ items, ILstable it) :
    List.foldl parseStep ⟨d, .none⟩ (renderBlockLines (.bullet items)) =
      ⟨d, .bullet items⟩ := by
  obtain ⟨it, its, rfl⟩ : ∃ it its, items = it :: its := by
    cases items with
    | nil => exact absurd rfl hne
    | cons it its => exact ⟨it, its, rfl⟩
  have hst2 : parseInlines (renderInlines it) = it := hst it (by simp)
  simp only [renderBlockLines, List.map_cons, List.foldl_cons]
  have hstep : parseStep ⟨d, .none⟩ ('-' :: ' ' :: renderInlines it) =
      ⟨d, .bullet [it]⟩ := by
    simp [parseStep, classify_bulletLine, flushCur, hst2]
  rw [hstep, foldl_bullet_go d its [it] (fun x hx => hst x (by simp [hx]))]
  simp

theorem foldl_ordered_go (d : List Block) :
    ∀ (items acc : List (List Inline)) (k : Nat), (∀ it ∈ items, ILstable it) →
    List.foldl parseStep ⟨d, .ordered acc⟩ (numberLines k items) =
      ⟨d, .ordered (acc ++ items)⟩ := by
  intro items
  induction items with
  | nil => intro acc k _; simp [numberLines]
  | cons it its ih =>
    intro acc k hst
    have hst2 : parseInlines (renderInlines it) = it := hst it (by simp)
    obtain ⟨c0, d1, hnk⟩ : ∃ c0 d1, natToChars k = c0 :: d1 := by
      cases hh : natToChars k with
      | nil => exact absurd hh (natToChars_ne_nil k)
      | cons a b => exact ⟨a, b, rfl⟩
    have hdig : ∀ c ∈ c0 :: d1, c.isDigit = true := by
      rw [← hnk]; exact natToChars_digits k
    have hline : natToChars k ++ '.' :: ' ' :: renderInlines it =
        c0 :: (d1 ++ '.' :: ' ' :: renderInlines it) := by
      rw [hnk, List.cons_append]
    simp only [numberLines, List.foldl_cons]
    have hstep : parseStep ⟨d, .ordered acc⟩
        (natToChars k ++ '.' :: ' ' :: renderInlines it) =
        ⟨d, .ordered (acc ++ [it])⟩ := by
      rw [hline]
      simp [parseStep, classify_orderedLine c0 d1 (renderInlines it) hdig, hst2]
    rw [hstep, ih (acc ++ [it]) (k + 1) (fun x hx => hst x (by simp [hx]))]
    simp

theorem foldl_orderedBlock (d : List Block) (items : List (List Inline))
    (hne : items ≠ []) (hst : ∀ it ∈ items, ILstable it) :
    List.foldl parseStep ⟨d, .none⟩ (renderBlockLines (.ordered items)) =
      ⟨d, .ordered items⟩ := by
  obtain ⟨it, its, rfl⟩ : ∃ it its, items = it :: its := by
    cases items with
    | nil => exact absurd rfl hne
    | cons it its => exact ⟨it, its, rfl⟩
  have hst2 : parseInlines (renderInlines it) = it := hst it (by simp)
  obtain ⟨c0, d1, hnk⟩ : ∃ c0 d1, natToChars 1 = c0 :: d1 := ⟨'1', [], by decide⟩
  have hdig : ∀ c ∈ c0 :: d1, c.isDigit = true := by
    rw [← hnk]; exact natToChars_digits 1
  have hline : natToChars 1 ++ '.' :: ' ' :: renderInlines it =
      c0 :: (d1 ++ '.' :: ' ' :: renderInlines it) := by
    rw [hnk, List.cons_append]
  simp only [renderBlockLines, numberLines, List.foldl_cons]
  have hstep : parseStep ⟨d, .none⟩
      (natToChars 1 ++ '.' :: ' ' :: renderInlines it) =
      ⟨d, .ordered [it]⟩ := by
    rw [hline]
    simp [parseStep, classify_orderedLine c0 d1 (renderInlines it) hdig, flushCur, hst2]
  rw [hstep, foldl_ordered_go d its [it] 2 (fun x hx => hst x (by simp [hx]))]
  simp

theorem blockFold_flush (b : Block) (d : List Block) (hb : StableB b) :
    flushCur (List.foldl parseStep ⟨d, .none⟩ (renderBlockLines b)) =
      ⟨d ++ [b], .none⟩ := by
  cases b with
  | heading n c =>
    obtain ⟨h1, h6, hst, -⟩ := hb
    rw [foldl_heading d n c h1 h6 hst]
    rfl
  | para c =>
    obtain ⟨hst, -, hcl⟩ := hb
    rw [foldl_para d c hst hcl]
    rfl
  | codeBlock ls =>
    rw [foldl_codeBlock d ls (fun l hl => (hb l hl).1)]
    rfl
  | bullet items =>
    obtain ⟨hne, hst⟩ := hb
    rw [foldl_bulletBlock d items hne (fun it hi => (hst it hi).1)]
    rfl
  | ordered items =>
    obtain ⟨hne, hst⟩ := hb
    rw [foldl_orderedBlock d items hne (fun it hi => (hst it hi).1)]
    rfl
  | quote c =>
    obtain ⟨hst, -⟩ := hb
    rw [foldl_quote d c hst]
    rfl
  | hrule =>
    rw [foldl_hruleBlock d]
    rfl

theorem blockFold_blank (b : Block) (d : List Block) (hb : StableB b) :
    parseStep (List.foldl parseStep ⟨d, .none⟩ (renderBlockLines b)) [] =
      ⟨d ++ [b], .none⟩ := by
  cases b with
  | heading n c =>
    obtain ⟨h1, h6, hst, -⟩ := hb
    rw [foldl_heading d n c h1 h6 hst, parseStep_blank_none]
  | para c =>
    obtain ⟨hst, -, hcl⟩ := hb
    rw [foldl_para d c hst hcl, parseStep_blank_none]
  | codeBlock ls =>
    rw [foldl_codeBlock d ls (fun l hl => (hb l hl).1), parseStep_blank_none]
  | bullet items =>
    obtain ⟨hne, hst⟩ := hb
    rw [foldl_bulletBlock d items hne (fun it hi => (hst it hi).1),
      parseStep_blank_bullet]
  | ordered items =>
    obtain ⟨hne, hst⟩ := hb
    rw [foldl_orderedBlock d items hne (fun it hi => (hst it hi).1),
      parseStep_blank_ordered]
  | quote c =>
    obtain ⟨hst, -⟩ := hb
    rw [foldl_quote d c hst, parseStep_blank_none]
  | hrule =>
    rw [foldl_hruleBlock d, parseStep_blank_none]

theorem foldl_renderDoc :
    ∀ (ds : List Block) (d : List Block), (∀ b ∈ ds, StableB b) →
    (flushCur (List.foldl parseStep ⟨d, .none⟩ (renderDocLines ds))).done =
      d ++ ds := by
  intro ds
  induction ds with
  | nil => intro d _; simp [renderDocLines, flushCur]
  | cons b ds1 ih =>
    intro d hst
    cases ds1 with
    | nil =>
      rw [show renderDocLines [b] = renderBlockLines b from rfl,
        blockFold_flush b d (hst b (by simp))]
    | cons b2 ds2 =>
      rw [show renderDocLines (b :: b2 :: ds2) =
          renderBlockLines b ++ ([] :: renderDocLines (b2 :: ds2)) from rfl,
        List.foldl_append, List.foldl_cons,
        blockFold_blank b d (hst b (by simp)),
        ih (d ++ [b]) (fun x hx => hst x (by simp [hx]))]
      simp

theorem noNl_drop {l : List Char} (h : noNl l = true) (k : Nat) :
    noNl (l.drop k) = true := by
  rw [noNl, List.all_eq_true] at h ⊢
  intro c hc
  exact h c (List.mem_of_mem_drop hc)

theorem classify_heading_inv {l : List Char} {n : Nat} {r : List Char}
    (h : classify l = .heading n r) : 1 ≤ n ∧ n ≤ 6 ∧ ∃ k, r = l.drop k := by
  unfold classify at h
  split at h
  · simp at h
  · split at h
    · simp at h
    · split at h
      · simp at h
      · split at h
        · next hc =>
          simp only [LineKind.heading.injEq] at h
          obtain ⟨rfl, rfl⟩ := h
          exact ⟨hc.1, hc.2.1, _, rfl⟩
        · split at h
          · simp at h
          · split at h
            · simp at h
            · split at h
              · simp at h
              · simp at h

theorem classify_bullet_inv {l : List Char} {r : List Char}
    (h : classify l = .bullet r) : r = l.drop 2 := by
  unfold classify at h
  split at h
  · simp at h
  · split at h
    · simp at h
    · split at h
      · simp at h
      · split at h
        · simp at h
        · split at h
          · simp only [LineKind.bullet.injEq] at h
            exact h.symm
          · split at h
            · simp at h
            · split at h
              · simp at h
              · simp at h

theorem classify_quote_inv {l : List Char} {r : List Char}
    (h : classify l = .quote r) : r = l.drop 2 := by
  unfold classify at h
  split at h
  · simp at h
  · split at h
    · simp at h
    · split at h
      · simp at h
      · split at h
        · simp at h
        · split at h
          · simp at h
          · split at h
            · simp only [LineKind.quote.injEq] at h
              exact h.symm
            · split at h
              · simp at h
              · simp at h

theorem classify_ordered_inv {l : List Char} {r : List Char}
    (h : classify l = .ordered r) : ∃ k, r = l.drop k := by
  unfold classify at h
  split at h
  · simp at h
  · split at h
    · simp at h
    · split at h
      · simp at h
      · split at h
        · simp at h
        · split at h
          · simp at h
          · split at h
            · simp at h
            · split at h
              · simp only [LineKind.ordered.injEq] at h
                exact ⟨_, h.symm⟩
              · simp at h

theorem flushCur_ok {st : PState} (h : StateOK st) : StateOK (flushCur st) := by
  obtain ⟨hd, hc⟩ := h
  obtain ⟨done, cur⟩ := st
  cases cur with
  | none => exact ⟨hd, trivial⟩
  | code ls =>
    refine ⟨?_, trivial⟩
    intro b hb
    simp only [flushCur, List.mem_append, List.mem_singleton] at hb
    cases hb with
    | inl hbb => exact hd b hbb
    | inr hbb => subst hbb; exact hc
  | bullet items =>
    refine ⟨?_, trivial⟩
    intro b hb
    simp only [flushCur, List.mem_append, List.mem_singleton] at hb
    cases hb with
    | inl hbb => exact hd b hbb
    | inr hbb => subst hbb; exact hc
  | ordered items =>
    refine ⟨?_, trivial⟩
    intro b hb
    simp only [flushCur, List.mem_append, List.mem_singleton] at hb
    cases hb with
    | inl hbb => exact hd b hbb
    | inr hbb => subst hbb; exact hc

theorem noNl_render_parse {cs : List Char} (h : noNl cs = true) :
    noNl (renderInlines (parseInlines cs)) = true := by
  rw [renderInlines_parseInlines]
  exact h

theorem all_append_one {done : List Block} {b : Block}
    (hd : ∀ x ∈ done, StableB x) (hb : StableB b) :
    ∀ x ∈ done ++ [b], StableB x := by
  intro x hx
  simp only [List.mem_append, List.mem_singleton] at hx
  cases hx with
  | inl hxx => exact hd x hxx
  | inr hxx => subst hxx; exact hb

theorem parseStep_ok {st : PState} {l : List Char} (h : StateOK st)
    (hl : noNl l = true) : StateOK (parseStep st l) := by
  obtain ⟨hd, hc⟩ := h
  obtain ⟨done, cur⟩ := st
  cases cur with
  | code ls =>
    simp only [parseStep]
    split
    · refine ⟨?_, trivial⟩
      intro b hb
      simp only [List.mem_append, List.mem_singleton] at hb
      cases hb with
      | inl hbb => exact hd b hbb
      | inr hbb => subst hbb; exact hc
    · next hne =>
      refine ⟨hd, ?_⟩
      intro x hx
      simp only [List.mem_append, List.mem_singleton] at hx
      cases hx with
      | inl hxx => exact hc x hxx
      | inr hxx => subst hxx; exact ⟨hne, hl⟩
  | none =>
    simp only [parseStep]
    cases hcl : classify l with
    | blank => exact flushCur_ok ⟨hd, hc⟩
    | fence =>
      exact ⟨(flushCur_ok ⟨hd, hc⟩).1, by intro x hx; simp at hx⟩
    | hrule =>
      exact ⟨all_append_one (flushCur_ok ⟨hd, hc⟩).1 trivial, trivial⟩
    | heading n r =>
      obtain ⟨h1, h6, k, rfl⟩ := classify_heading_inv hcl
      exact ⟨all_append_one (flushCur_ok ⟨hd, hc⟩).1
        ⟨h1, h6, ILstable_parse _, noNl_render_parse (noNl_drop hl k)⟩, trivial⟩
    | quote r =>
      obtain rfl := classify_quote_inv hcl
      exact ⟨all_append_one (flushCur_ok ⟨hd, hc⟩).1
        ⟨ILstable_parse _, noNl_render_parse (noNl_drop hl 2)⟩, trivial⟩
    | bullet r =>
      obtain rfl := classify_bullet_inv hcl
      refine ⟨(flushCur_ok ⟨hd, hc⟩).1, by simp, ?_⟩
      intro it hit
      simp only [List.mem_singleton] at hit
      subst hit
      exact ⟨ILstable_parse _, noNl_render_parse (noNl_drop hl 2)⟩
    | ordered r =>
      obtain ⟨k, rfl⟩ := classify_ordered_inv hcl
      refine ⟨(flushCur_ok ⟨hd, hc⟩).1, by simp, ?_⟩
      intro it hit
      simp only [List.mem_singleton] at hit
      subst hit
      exact ⟨ILstable_parse _, noNl_render_parse (noNl_drop hl k)⟩
    | plain =>
      exact ⟨all_append_one (flushCur_ok ⟨hd, hc⟩).1
        ⟨ILstable_parse _, by rw [renderInlines_parseInlines]; exact hl,
          by rw [renderInlines_parseInlines]; exact hcl⟩, trivial⟩
  | bullet its =>
    obtain ⟨hne, hits⟩ := hc
    simp only [parseStep]
    cases hcl : classify l with
    | blank => exact flushCur_ok ⟨hd, ⟨hne, hits⟩⟩
    | fence =>
      exact ⟨(flushCur_ok ⟨hd, ⟨hne, hits⟩⟩).1, by intro x hx; simp at hx⟩
    | hrule =>
      exact ⟨all_append_one (flushCur_ok ⟨hd, ⟨hne, hits⟩⟩).1 trivial, trivial⟩
    | heading n r =>
      obtain ⟨h1, h6, k, rfl⟩ := classify_heading_inv hcl
      exact ⟨all_append_one (flushCur_ok ⟨hd, ⟨hne, hits⟩⟩).1
        ⟨h1, h6, ILstable_parse _, noNl_render_parse (noNl_drop hl k)⟩, trivial⟩
    | quote r =>
      obtain rfl := classify_quote_inv hcl
      exact ⟨all_append_one (flushCur_ok ⟨hd, ⟨hne, hits⟩⟩).1
        ⟨ILstable_parse _, noNl_render_parse (noNl_drop hl 2)⟩, trivial⟩
    | bullet r =>
      obtain rfl := classify_bullet_inv hcl
      refine ⟨hd, by simp, ?_⟩
      intro it hit
      simp only [List.mem_append, List.mem_singleton] at hit
      cases hit with
      | inl hii => exact hits it hii
      | inr hii =>
        subst hii
        exact ⟨ILstable_parse _, noNl_render_parse (noNl_drop hl 2)⟩
    | ordered r =>
      obtain ⟨k, rfl⟩ := classify_ordered_inv hcl
      refine ⟨(flushCur_ok ⟨hd, ⟨hne, hits⟩⟩).1, by simp, ?_⟩
      intro it hit
      simp only [List.mem_singleton] at hit
      subst hit
      exact ⟨ILstable_parse _, noNl_render_parse (noNl_drop hl k)⟩
    | plain =>
      exact ⟨all_append_one (flushCur_ok ⟨hd, ⟨hne, hits⟩⟩).1
        ⟨ILstable_parse _, by rw [renderInlines_parseInlines]; exact hl,
          by rw [renderInlines_parseInlines]; exact hcl⟩, trivial⟩
  | ordered its =>
    obtain ⟨hne, hits⟩ := hc
    simp only [parseStep]
    cases hcl : classify l with
    | blank => exact flushCur_ok ⟨hd, ⟨hne, hits⟩⟩
    | fence =>
      exact ⟨(flushCur_ok ⟨hd, ⟨hne, hits⟩⟩).1, by intro x hx; simp at hx⟩
    | hrule =>
      exact ⟨all_append_one (flushCur_ok ⟨hd, ⟨hne, hits⟩⟩).1 trivial, trivial⟩
    | heading n r =>
      obtain ⟨h1, h6, k, rfl⟩ := classify_heading_inv hcl
      exact ⟨all_append_one (flushCur_ok ⟨hd, ⟨hne, hits⟩⟩).1
        ⟨h1, h6, ILstable_parse _, noNl_render_parse (noNl_drop hl k)⟩, trivial⟩
    | quote r =>
      obtain rfl := classify_quote_inv hcl
      exact ⟨all_append_one (flushCur_ok ⟨hd, ⟨hne, hits⟩⟩).1
        ⟨ILstable_parse _, noNl_render_parse (noNl_drop hl 2)⟩, trivial⟩
    | bullet r =>
      obtain rfl := classify_bullet_inv hcl
      refine ⟨(flushCur_ok ⟨hd, ⟨hne, hits⟩⟩).1, by simp, ?_⟩
      intro it hit
      simp only [List.mem_singleton] at hit
      subst hit
      exact ⟨ILstable_parse _, noNl_render_parse (noNl_drop hl 2)⟩
    | ordered r =>
      obtain ⟨k, rfl⟩ := classify_ordered_inv hcl
      refine ⟨hd, by simp, ?_⟩
      intro it hit
      simp only [List.mem_append, List.mem_singleton] at hit
      cases hit with
      | inl hii => exact hits it hii
      | inr hii =>
        subst hii
        exact ⟨ILstable_parse _, noNl_render_parse (noNl_drop hl k)⟩
    | plain =>
      exact ⟨all_append_one (flushCur_ok ⟨hd, ⟨hne, hits⟩⟩).1
        ⟨ILstable_parse _, by rw [renderInlines_parseInlines]; exact hl,
          by rw [renderInlines_parseInlines]; exact hcl⟩, trivial⟩

theorem foldl_ok :
    ∀ (L : List (List Char)) (st : PState), StateOK st →
    (∀ l ∈ L, noNl l = true) → StateOK (List.foldl parseStep st L) := by
  intro L
  induction L with
  | nil => intro st h _; exact h
  | cons l L1 ih =>
    intro st h hL
    rw [List.foldl_cons]
    exact ih _ (parseStep_ok h (hL l (by simp))) (fun x hx => hL x (by simp [hx]))

/-- Every block the parser emits is stable under render-and-reparse. -/
theorem parseBlocks_stable {L : List (List Char)}
    (hL : ∀ l ∈ L, noNl l = true) : ∀ b ∈ parseBlocks L, StableB b :=
  (flushCur_ok (foldl_ok L ⟨[], .none⟩ ⟨by simp, trivial⟩ hL)).1

theorem splitLines_ne_nil (cs : List Char) : splitLines cs ≠ [] := by
  cases cs with
  | nil => simp [splitLines]
  | cons c cs1 =>
    rw [splitLines]
    split
    · simp
    · split <;> simp

theorem noNl_splitLines (cs : List Char) : ∀ l ∈ splitLines cs, noNl l = true := by
  induction cs with
  | nil =>
    intro l hl
    simp only [splitLines, List.mem_singleton] at hl
    subst hl
    rfl
  | cons c cs1 ih =>
    intro l hl
    rw [splitLines] at hl
    split at hl
    · simp only [List.mem_cons] at hl
      cases hl with
      | inl h => subst h; rfl
      | inr h => exact ih l h
    · next hcne =>
      cases hsp : splitLines cs1 with
      | nil => exact absurd hsp (splitLines_ne_nil cs1)
      | cons l0 ls0 =>
        rw [hsp] at hl
        simp only [List.mem_cons] at hl
        cases hl with
        | inl h =>
          subst h
          have h0 : noNl l0 = true := ih l0 (by rw [hsp]; simp)
          rw [noNl, List.all_cons]
          rw [noNl] at h0
          simp [hcne, h0]
        | inr h => exact ih l (by rw [hsp]; simp [h])

theorem joinLines_cons_cons (c : Char) (l0 : List Char) (ls0 : List (List Char)) :
    joinLines ((c :: l0) :: ls0) = c :: joinLines (l0 :: ls0) := by
  cases ls0 with
  | nil => rfl
  | cons l1 ls1 => simp [joinLines]

theorem joinLines_splitLines (cs : List Char) : joinLines (splitLines cs) = cs := by
  induction cs with
  | nil => rfl
  | cons c cs1 ih =>
    rw [splitLines]
    split
    · next hc =>
      subst hc
      cases hsp : splitLines cs1 with
      | nil => exact absurd hsp (splitLines_ne_nil cs1)
      | cons l0 ls0 =>
        rw [show joinLines ([] :: l0 :: ls0) = '\n' :: joinLines (l0 :: ls0)
          from rfl, ← hsp, ih]
    · next hc =>
      cases hsp : splitLines cs1 with
      | nil => exact absurd hsp (splitLines_ne_nil cs1)
      | cons l0 ls0 =>
        rw [joinLines_cons_cons, ← hsp, ih]

theorem splitLines_append_cons {l : List Char} (hnl : noNl l = true) :
    ∀ (cs : List Char) (h : List Char) (t : List (List Char)),
    splitLines cs = h :: t → splitLines (l ++ cs) = (l ++ h) :: t := by
  induction l with
  | nil => intro cs h t hsp; simpa using hsp
  | cons c l1 ih =>
    intro cs h t hsp
    have hc : ¬(c = '\n') := by
      rw [noNl, List.all_cons] at hnl
      simp only [Bool.and_eq_true, Bool.not_eq_true', decide_eq_false_iff_not] at hnl
      exact hnl.1
    have hnl1 : noNl l1 = true := by
      rw [noNl, List.all_cons, Bool.and_eq_true] at hnl
      exact hnl.2
    rw [List.cons_append, splitLines, if_neg hc, ih hnl1 cs h t hsp]
    simp

theorem splitLines_single {l : List Char} (hnl : noNl l = true) :
    splitLines l = [l] := by
  have := splitLines_append_cons hnl [] [] [] rfl
  simpa using this

theorem splitLines_joinLines :
    ∀ (L : List (List Char)), (∀ l ∈ L, noNl l = true) → L ≠ [] →
    splitLines (joinLines L) = L := by
  intro L
  induction L with
  | nil => intro _ hne; exact absurd rfl hne
  | cons l L1 ih =>
    intro hnl _
    cases L1 with
    | nil => exact splitLines_single (hnl l (by simp))
    | cons l2 ls =>
      rw [show joinLines (l :: l2 :: ls) = l ++ '\n' :: joinLines (l2 :: ls)
        from rfl]
      have hrec : splitLines ('\n' :: joinLines (l2 :: ls)) =
          [] :: splitLines (joinLines (l2 :: ls)) := by
        rw [splitLines, if_pos rfl]
      rw [ih (fun x hx => hnl x (by simp [hx])) (by simp)] at hrec
      rw [splitLines_append_cons (hnl l (by simp)) _ _ _ hrec]
      simp

theorem noNl_append {a b : List Char} (ha : noNl a = true) (hb : noNl b = true) :
    noNl (a ++ b) = true := by
  rw [noNl, List.all_append]
  rw [noNl] at ha hb
  simp [ha, hb]

theorem noNl_fence : noNl fenceChars = true := by decide

theorem noNl_replicate_hash (n : Nat) : noNl (List.replicate n '#') = true := by
  rw [noNl, List.all_eq_true]
  intro c hc
  rw [List.eq_of_mem_replicate hc]
  decide

theorem noNl_natToChars (k : Nat) : noNl (natToChars k) = true := by
  rw [noNl, List.all_eq_true]
  intro c hc
  have := natToChars_digits k c hc
  simp only [Bool.not_eq_true', decide_eq_false_iff_not]
  exact isDigit_ne this (by decide)

theorem numberLines_noNl :
    ∀ (items : List (List Inline)) (k : Nat),
    (∀ it ∈ items, noNl (renderInlines it) = true) →
    ∀ l ∈ numberLines k items, noNl l = true := by
  intro items
  induction items with
  | nil => intro k _ l hl; simp [numberLines] at hl
  | cons it its ih =>
    intro k hits l hl
    rw [numberLines] at hl
    simp only [List.mem_cons] at hl
    cases hl with
    | inl h =>
      subst h
      refine noNl_append (noNl_natToChars k) ?_
      rw [noNl, List.all_cons, List.all_cons]
      have := hits it (by simp)
      rw [noNl] at this
      simp [this]
    | inr h => exact ih (k + 1) (fun x hx => hits x (by simp [hx])) l h

theorem renderBlockLines_noNl {b : Block} (hb : StableB b) :
    ∀ l ∈ renderBlockLines b, noNl l = true := by
  cases b with
  | heading n c =>
    intro l hl
    obtain ⟨-, -, -, hnl⟩ := hb
    simp only [renderBlockLines, List.mem_singleton] at hl
    subst hl
    refine noNl_append (noNl_replicate_hash n) ?_
    rw [noNl, List.all_cons]
    rw [noNl] at hnl
    simp [hnl]
  | para c =>
    intro l hl
    obtain ⟨-, hnl, -⟩ := hb
    simp only [renderBlockLines, List.mem_singleton] at hl
    subst hl
    exact hnl
  | codeBlock ls =>
    intro l hl
    simp only [renderBlockLines, List.mem_cons, List.mem_append,
      List.mem_singleton] at hl
    rcases hl with h | h | h | h
    · subst h; exact noNl_fence
    · exact (hb l h).2
    · subst h; exact noNl_fence
    · simp at h
  | bullet items =>
    intro l hl
    obtain ⟨-, hits⟩ := hb
    simp only [renderBlockLines, List.mem_map] at hl
    obtain ⟨it, hit, rfl⟩ := hl
    have := (hits it hit).2
    rw [noNl, List.all_cons, List.all_cons]
    rw [noNl] at this
    simp [this]
  | ordered items =>
    intro l hl
    obtain ⟨-, hits⟩ := hb
    exact numberLines_noNl items 1 (fun it hit => (hits it hit).2) l hl
  | quote c =>
    intro l hl
    obtain ⟨-, hnl⟩ := hb
    simp only [renderBlockLines, List.mem_singleton] at hl
    subst hl
    rw [noNl, List.all_cons, List.all_cons]
    rw [noNl] at hnl
    simp [hnl]
  | hrule =>
    intro l hl
    simp only [renderBlockLines, List.mem_singleton] at hl
    subst hl
    decide

theorem renderDocLines_noNl :
    ∀ (ds : List Block), (∀ b ∈ ds, StableB b) →
    ∀ l ∈ renderDocLines ds, noNl l = true := by
  intro ds
  induction ds with
  | nil => intro _ l hl; simp [renderDocLines] at hl
  | cons b ds1 ih =>
    intro hst l hl
    cases ds1 with
    | nil =>
      rw [show renderDocLines [b] = renderBlockLines b from rfl] at hl
      exact renderBlockLines_noNl (hst b (by simp)) l hl
    | cons b2 ds2 =>
      rw [show renderDocLines (b :: b2 :: ds2) =
        renderBlockLines b ++ ([] :: renderDocLines (b2 :: ds2)) from rfl] at hl
      simp only [List.mem_append, List.mem_cons] at hl
      rcases hl with h | h | h
      · exact renderBlockLines_noNl (hst b (by simp)) l h
      · subst h; rfl
      · exact ih (fun x hx => hst x (by simp [hx])) l h

theorem renderBlockLines_ne_nil {b : Block} (hb : StableB b) :
    renderBlockLines b ≠ [] := by
  cases b with
  | heading n c => simp [renderBlockLines]
  | para c => simp [renderBlockLines]
  | codeBlock ls => simp [renderBlockLines]
  | bullet items =>
    obtain ⟨hne, -⟩ := hb
    simp [renderBlockLines, hne]
  | ordered items =>
    obtain ⟨hne, -⟩ := hb
    obtain ⟨it, its, rfl⟩ : ∃ it its, items = it :: its := by
      cases items with
      | nil => exact absurd rfl hne
      | cons it its => exact ⟨it, its, rfl⟩
    simp [renderBlockLines, numberLines]
  | quote c => simp [renderBlockLines]
  | hrule => simp [renderBlockLines]

theorem renderDocLines_ne_nil {ds : List Block} (hne : ds ≠ [])
    (hst : ∀ b ∈ ds, StableB b) : renderDocLines ds ≠ [] := by
  cases ds with
  | nil => exact absurd rfl hne
  | cons b ds1 =>
    cases ds1 with
    | nil =>
      rw [show renderDocLines [b] = renderBlockLines b from rfl]
      exact renderBlockLines_ne_nil (hst b (by simp))
    | cons b2 ds2 =>
      rw [show renderDocLines (b :: b2 :: ds2) =
        renderBlockLines b ++ ([] :: renderDocLines (b2 :: ds2)) from rfl]
      simp

/-- Stable documents are recovered exactly by parsing their rendering. -/
theorem markdownToRich_richToMarkdown {ds : RichDoc}
    (hst : ∀ b ∈ ds, StableB b) : markdownToRich (richToMarkdown ds) = ds := by
  cases hds : ds with
  | nil => rfl
  | cons b ds1 =>
    rw [← hds]
    have hne : ds ≠ [] := by rw [hds]; simp
    rw [markdownToRich, richToMarkdown]
    rw [show (String.mk (joinLines (renderDocLines ds))).toList =
      joinLines (renderDocLines ds) from rfl]
    rw [splitLines_joinLines (renderDocLines ds) (renderDocLines_noNl ds hst)
      (renderDocLines_ne_nil hne hst)]
    rw [parseBlocks, foldl_renderDoc ds [] hst]
    simp

/-- Every value of `markdownToRich` is stable. -/
theorem markdownToRich_stable (md : String) :
    ∀ b ∈ markdownToRich md, StableB b := by
  rw [markdownToRich]
  exact parseBlocks_stable (noNl_splitLines md.toList)

/-- Converting any Markdown to rich form and back is idempotent after
the first pass: the converter pair is a normalization. -/
theorem markdownToRich_idem (md : String) :
    markdownToRich (richToMarkdown (markdownToRich md)) = markdownToRich md :=
  markdownToRich_richToMarkdown (markdownToRich_stable md)

theorem countRunsGo_dropWhile (cs : List Char) :
    countRunsGo true (cs.dropWhile isWs) = countRunsGo true cs := by
  induction cs with
  | nil => rfl
  | cons c cs1 ih =>
    rw [List.dropWhile_cons]
    split
    · next hws =>
      rw [ih]
      rw [show countRunsGo true (c :: cs1) =
        (if !isWs c && true then 1 else 0) + countRunsGo (isWs c) cs1 from rfl]
      rw [hws]
      simp
    · rfl

theorem wsSplitGo_countRuns :
    ∀ (fuel : Nat) (cs part : List Char), cs.length < fuel →
    ((wsSplitGo fuel part cs).filter (fun p => !p.isEmpty)).length =
      (if part.isEmpty then 0 else 1) + countRunsGo part.isEmpty cs := by
  intro fuel
  induction fuel using Nat.strong_induction_on with
  | _ fuel ih =>
    intro cs part hlen
    obtain ⟨f, rfl⟩ : ∃ f, fuel = f + 1 := by
      cases fuel with
      | zero => omega
      | succ f => exact ⟨f, rfl⟩
    cases cs with
    | nil =>
      rw [wsSplitGo]
      cases part with
      | nil => simp [countRunsGo]
      | cons a b =>
        have hne : (a :: b).reverse ≠ [] := by simp
        rw [List.filter_cons]
        have h1 : (!((a :: b).reverse).isEmpty) = true := by simp
        rw [h1, if_pos rfl]
        simp [countRunsGo]
    | cons c cs1 =>
      rw [wsSplitGo]
      have hdl : (cs1.dropWhile isWs).length ≤ cs1.length :=
        (List.dropWhile_sublist isWs).length_le
      by_cases hws : isWs c = true
      · rw [if_pos hws]
        have hrec := ih f (by omega) (cs1.dropWhile isWs) []
          (by simp only [List.length_cons] at hlen; omega)
        rw [show countRunsGo part.isEmpty (c :: cs1) =
          (if !isWs c && part.isEmpty then 1 else 0) +
            countRunsGo (isWs c) cs1 from rfl]
        rw [hws]
        simp only [Bool.not_true, Bool.false_and, if_false]
        rw [← countRunsGo_dropWhile cs1]
        cases part with
        | nil =>
          rw [List.filter_cons]
          have h1 : (!([] : List Char).reverse.isEmpty) = false := rfl
          rw [h1, if_neg Bool.false_ne_true, hrec]
          simp
        | cons a b =>
          rw [List.filter_cons]
          have h1 : (!((a :: b).reverse).isEmpty) = true := by simp
          rw [h1, if_pos rfl]
          simp only [List.length_cons]
          rw [hrec]
          simp
          omega
      · have hws2 : isWs c = false := by
          cases h2 : isWs c with
          | true => exact absurd h2 hws
          | false => rfl
        rw [if_neg hws]
        have hrec := ih f (by omega) cs1 (c :: part)
          (by simp only [List.length_cons] at hlen; omega)
        rw [hrec]
        rw [show countRunsGo part.isEmpty (c :: cs1) =
          (if !isWs c && part.isEmpty then 1 else 0) +
            countRunsGo (isWs c) cs1 from rfl]
        rw [hws2]
        simp only [List.isEmpty_cons, Bool.not_false, Bool.true_and]
        cases part with
        | nil => simp
        | cons a b => simp

/-- The Qt word split agrees with the maximal-run count. -/
theorem qtSplitWs_countRuns (cs : List Char) :
    ((qtSplitWs cs).filter (fun p => !p.isEmpty)).length = countRuns cs := by
  rw [qtSplitWs, wsSplitGo_countRuns (cs.length + 1) cs [] (by omega)]
  simp [countRuns]

theorem takeWhile_append_all {p : Char → Bool} :
    ∀ (a b : List Char), (∀ x ∈ a, p x = true) →
    (a ++ b).takeWhile p = a ++ b.takeWhile p := by
  intro a
  induction a with
  | nil => intro b _; simp
  | cons x a1 ih =>
    intro b ha
    have hx : p x = true := ha x (by simp)
    simp only [List.cons_append, List.takeWhile_cons, hx, if_true]
    rw [ih b (fun y hy => ha y (by simp [hy]))]

theorem takeWhile_stop {p : Char → Bool} :
    ∀ (a b : List Char), (∃ c ∈ a, p c = false) →
    (a ++ b).takeWhile p = a.takeWhile p := by
  intro a
  induction a with
  | nil => intro b h; simp at h
  | cons x a1 ih =>
    intro b h
    cases hx : p x with
    | false => simp [List.takeWhile_cons, hx]
    | true =>
      obtain ⟨c, hc, hpc⟩ := h
      have hc1 : c ∈ a1 := by
        cases List.mem_cons.mp hc with
        | inl hEq => subst hEq; rw [hx] at hpc; simp at hpc
        | inr hm => exact hm
      simp only [List.cons_append, List.takeWhile_cons, hx, if_true]
      rw [ih b ⟨c, hc1, hpc⟩]

theorem takeWhile_all_self {p : Char → Bool} :
    ∀ (l : List Char), (∀ x ∈ l, p x = true) → l.takeWhile p = l := by
  intro l
  induction l with
  | nil => intro _; rfl
  | cons x l1 ih =>
    intro h
    simp only [List.takeWhile_cons, h x (by simp), if_true]
    rw [ih (fun y hy => h y (by simp [hy]))]

theorem takeWhile_self_append_drop {p : Char → Bool} :
    ∀ (l : List Char), l.takeWhile p ++ l.drop (l.takeWhile p).length = l := by
  intro l
  induction l with
  | nil => rfl
  | cons x l1 ih =>
    cases hx : p x with
    | false => simp [List.takeWhile_cons, hx]
    | true =>
      simp only [List.takeWhile_cons, hx, if_true, List.length_cons,
        List.drop_succ_cons, List.cons_append]
      rw [ih]

theorem noNl_mem {l : List Char} (h : noNl l = true) {c : Char} (hc : c ∈ l) :
    c ≠ '\n' := by
  rw [noNl, List.all_eq_true] at h
  have := h c hc
  simpa using this

theorem noNl_takeWhile {l : List Char} (h : noNl l = true) (p : Char → Bool) :
    noNl (l.takeWhile p) = true := by
  rw [noNl, List.all_eq_true] at h ⊢
  intro c hc
  exact h c ((List.takeWhile_sublist p).subset hc)

theorem wsOnly_mem {l : List Char} (h : wsOnly l = true) :
    ∀ x ∈ l, isWs x = true := by
  rw [wsOnly, List.all_eq_true] at h
  exact h

theorem dropSepAux_ne_nil : ∀ (ls : List (List Char)), ls ≠ [] →
    dropSepAux ls ≠ [] := by
  intro ls
  induction ls with
  | nil => intro h; exact absurd rfl h
  | cons l ls1 ih =>
    intro _
    cases ls1 with
    | nil => simp [dropSepAux]
    | cons l2 ls2 =>
      rw [dropSepAux]
      split
      · exact ih (by simp)
      · simp

theorem dropSepAux_subset : ∀ (ls : List (List Char)) (x : List Char),
    x ∈ dropSepAux ls → x ∈ ls := by
  intro ls
  induction ls with
  | nil => intro x hx; simp [dropSepAux] at hx
  | cons l ls1 ih =>
    intro x hx
    cases ls1 with
    | nil => simpa [dropSepAux] using hx
    | cons l2 ls2 =>
      rw [dropSepAux] at hx
      split at hx
      · exact List.mem_cons_of_mem l (ih x hx)
      · exact hx

theorem dropSepAux_length_le : ∀ (ls : List (List Char)),
    (dropSepAux ls).length ≤ ls.length := by
  intro ls
  induction ls with
  | nil => simp [dropSepAux]
  | cons l ls1 ih =>
    cases ls1 with
    | nil => simp [dropSepAux]
    | cons l2 ls2 =>
      rw [dropSepAux]
      split
      · exact Nat.le_trans ih (by simp)
      · simp

theorem joinLines_dropSepAux_le : ∀ (ls : List (List Char)),
    (joinLines (dropSepAux ls)).length ≤ (joinLines ls).length := by
  intro ls
  induction ls with
  | nil => simp [dropSepAux]
  | cons l ls1 ih =>
    cases ls1 with
    | nil => simp [dropSepAux]
    | cons l2 ls2 =>
      rw [dropSepAux]
      split
      · refine Nat.le_trans ih ?_
        rw [show joinLines (l :: l2 :: ls2) = l ++ '\n' :: joinLines (l2 :: ls2)
          from rfl]
        simp
        omega
      · simp

theorem joinLines_append_one : ∀ (cur : List (List Char)) (l : List Char),
    joinLines (cur ++ [l]) = curChars cur ++ l := by
  intro cur
  induction cur with
  | nil => intro l; simp [curChars, joinLines]
  | cons c1 cr ih =>
    intro l
    cases cr with
    | nil => simp [joinLines, curChars]
    | cons c2 cr2 =>
      rw [show (c1 :: c2 :: cr2) ++ [l] = c1 :: ((c2 :: cr2) ++ [l]) from rfl]
      rw [show joinLines (c1 :: ((c2 :: cr2) ++ [l])) =
        c1 ++ '\n' :: joinLines ((c2 :: cr2) ++ [l]) from by
          cases cr2 <;> rfl]
      rw [ih l]
      rw [show curChars (c1 :: c2 :: cr2) =
        joinLines (c1 :: c2 :: cr2) ++ ['\n'] from rfl]
      rw [show joinLines (c1 :: c2 :: cr2) = c1 ++ '\n' :: joinLines (c2 :: cr2)
        from rfl]
      rw [show curChars (c2 :: cr2) = joinLines (c2 :: cr2) ++ ['\n'] from rfl]
      simp

theorem matchSep_not_nl {c : Char} (cs : List Char) (hc : ¬(c = '\n')) :
    matchSep (c :: cs) = none := by
  rw [matchSep, if_neg hc]

theorem matchSep_terminal {w1 t2 : List Char} (hw1 : wsOnly w1 = true)
    (hlw : noNl (t2.takeWhile isWs) = true) :
    matchSep ('\n' :: (w1 ++ '\n' :: t2)) = some t2 := by
  have hnlws : isWs '\n' = true := by decide
  have htw : (w1 ++ '\n' :: t2).takeWhile isWs =
      w1 ++ '\n' :: t2.takeWhile isWs := by
    rw [takeWhile_append_all w1 _ (wsOnly_mem hw1), List.takeWhile_cons, hnlws]
    simp
  rw [matchSep, if_pos rfl, htw]
  have hmem : '\n' ∈ w1 ++ '\n' :: t2.takeWhile isWs := by simp
  rw [if_pos hmem]
  have hrev : (w1 ++ '\n' :: t2.takeWhile isWs).reverse =
      (t2.takeWhile isWs).reverse ++ '\n' :: w1.reverse := by
    simp
  rw [hrev]
  have htail : ((t2.takeWhile isWs).reverse ++ '\n' :: w1.reverse).takeWhile
      (fun x => !decide (x = '\n')) = (t2.takeWhile isWs).reverse := by
    refine takeWhile_append_not _ _ _ ?_ (by simp)
    intro x hx
    have hxm : x ∈ t2.takeWhile isWs := List.mem_reverse.mp hx
    have := noNl_mem hlw hxm
    simpa using this
  rw [htail, List.reverse_reverse]
  have hlen : (w1 ++ '\n' :: t2.takeWhile isWs).length =
      w1.length + 1 + (t2.takeWhile isWs).length := by
    rw [List.length_append, List.length_cons]
    omega
  rw [hlen]
  have hdrop : (w1 ++ '\n' :: t2).drop
      (w1.length + 1 + (t2.takeWhile isWs).length) =
      t2.drop (t2.takeWhile isWs).length := by
    have h1 : (w1 ++ '\n' :: t2).drop (w1.length + 1) = t2 := by
      have h2 : (w1 ++ '\n' :: t2).drop w1.length = '\n' :: t2 :=
        drop_append_left w1 ('\n' :: t2)
      have h3 : (w1 ++ '\n' :: t2).drop (w1.length + 1) =
          ((w1 ++ '\n' :: t2).drop w1.length).drop 1 := by
        rw [List.drop_drop]
      rw [h3, h2]
      simp
    have h4 : (w1 ++ '\n' :: t2).drop
        (w1.length + 1 + (t2.takeWhile isWs).length) =
        ((w1 ++ '\n' :: t2).drop (w1.length + 1)).drop
          (t2.takeWhile isWs).length := by
      rw [List.drop_drop]
    rw [h4, h1]
  rw [hdrop, takeWhile_self_append_drop]

theorem matchSep_peel {w1 r1 : List Char} {rest2 : List (List Char)}
    (hw1 : wsOnly w1 = true) (hr1 : wsOnly r1 = true) (hne : rest2 ≠ []) :
    matchSep ('\n' :: joinLines (w1 :: r1 :: rest2)) =
      matchSep ('\n' :: joinLines (r1 :: rest2)) := by
  obtain ⟨x, xs, rfl⟩ : ∃ x xs, rest2 = x :: xs := by
    cases rest2 with
    | nil => exact absurd rfl hne
    | cons x xs => exact ⟨x, xs, rfl⟩
  have hnlws : isWs '\n' = true := by decide
  have hT : joinLines (w1 :: r1 :: x :: xs) =
      w1 ++ '\n' :: joinLines (r1 :: x :: xs) := rfl
  have ht2 : joinLines (r1 :: x :: xs) = r1 ++ '\n' :: joinLines (x :: xs) := rfl
  have hw2 : (joinLines (r1 :: x :: xs)).takeWhile isWs =
      r1 ++ '\n' :: (joinLines (x :: xs)).takeWhile isWs := by
    rw [ht2, takeWhile_append_all r1 _ (wsOnly_mem hr1), List.takeWhile_cons,
      hnlws]
    simp
  have hw : (joinLines (w1 :: r1 :: x :: xs)).takeWhile isWs =
      w1 ++ '\n' :: (joinLines (r1 :: x :: xs)).takeWhile isWs := by
    rw [hT, takeWhile_append_all w1 _ (wsOnly_mem hw1), List.takeWhile_cons,
      hnlws]
    simp
  have hmem2 : '\n' ∈ (joinLines (r1 :: x :: xs)).takeWhile isWs := by
    rw [hw2]
    simp
  have hmem : '\n' ∈ (joinLines (w1 :: r1 :: x :: xs)).takeWhile isWs := by
    rw [hw]
    simp
  rw [matchSep, if_pos rfl, if_pos hmem, matchSep, if_pos rfl, if_pos hmem2]
  congr 1
  have htails : ((joinLines (w1 :: r1 :: x :: xs)).takeWhile isWs).reverse.takeWhile
      (fun y => !decide (y = '\n')) =
      ((joinLines (r1 :: x :: xs)).takeWhile isWs).reverse.takeWhile
      (fun y => !decide (y = '\n')) := by
    rw [hw]
    have hrev : (w1 ++ '\n' :: (joinLines (r1 :: x :: xs)).takeWhile isWs).reverse =
        ((joinLines (r1 :: x :: xs)).takeWhile isWs).reverse ++
          '\n' :: w1.reverse := by
      simp
    rw [hrev]
    refine takeWhile_stop _ _ ⟨'\n', ?_, by simp⟩
    rw [List.mem_reverse]
    exact hmem2
  have hdrops : (joinLines (w1 :: r1 :: x :: xs)).drop
      ((joinLines (w1 :: r1 :: x :: xs)).takeWhile isWs).length =
      (joinLines (r1 :: x :: xs)).drop
      ((joinLines (r1 :: x :: xs)).takeWhile isWs).length := by
    rw [hw, hT]
    have hlen : (w1 ++ '\n' :: (joinLines (r1 :: x :: xs)).takeWhile isWs).length =
        w1.length + 1 + ((joinLines (r1 :: x :: xs)).takeWhile isWs).length := by
      rw [List.length_append, List.length_cons]
      omega
    rw [hlen]
    have h1 : (w1 ++ '\n' :: joinLines (r1 :: x :: xs)).drop (w1.length + 1) =
        joinLines (r1 :: x :: xs) := by
      have h2 := drop_append_left w1 ('\n' :: joinLines (r1 :: x :: xs))
      have h3 : (w1 ++ '\n' :: joinLines (r1 :: x :: xs)).drop (w1.length + 1) =
          ((w1 ++ '\n' :: joinLines (r1 :: x :: xs)).drop w1.length).drop 1 := by
        rw [List.drop_drop]
      rw [h3, h2]
      simp
    have h4 : (w1 ++ '\n' :: joinLines (r1 :: x :: xs)).drop
        (w1.length + 1 + ((joinLines (r1 :: x :: xs)).takeWhile isWs).length) =
        ((w1 ++ '\n' :: joinLines (r1 :: x :: xs)).drop (w1.length + 1)).drop
          ((joinLines (r1 :: x :: xs)).takeWhile isWs).length := by
      rw [List.drop_drop]
    rw [h4, h1]
  rw [htails, hdrops]

theorem matchSep_none_content {r1 : List Char} {rest2 : List (List Char)}
    (hr1nl : noNl r1 = true) (h : wsOnly r1 = false ∨ rest2 = []) :
    matchSep ('\n' :: joinLines (r1 :: rest2)) = none := by
  have hguard : noNl ((joinLines (r1 :: rest2)).takeWhile isWs) = true := by
    cases rest2 with
    | nil =>
      rw [show joinLines [r1] = r1 from rfl]
      exact noNl_takeWhile hr1nl isWs
    | cons x xs =>
      cases h with
      | inr hEq => simp at hEq
      | inl hws =>
        rw [show joinLines (r1 :: x :: xs) = r1 ++ '\n' :: joinLines (x :: xs)
          from rfl]
        obtain ⟨c, hcm, hcw⟩ : ∃ c ∈ r1, isWs c = false := by
          rw [wsOnly, List.all_eq_false] at hws
          obtain ⟨c, hcm, hcw⟩ := hws
          exact ⟨c, hcm, by simpa using hcw⟩
        rw [takeWhile_stop r1 _ ⟨c, hcm, hcw⟩]
        exact noNl_takeWhile hr1nl isWs
  rw [matchSep, if_pos rfl]
  rw [if_neg]
  intro hmem
  exact noNl_mem hguard hmem rfl

theorem parSplitGo_accum :
    ∀ (l : List Char), noNl l = true →
    ∀ (fuel : Nat), l.length ≤ fuel → ∀ (part r : List Char),
    parSplitGo fuel part (l ++ r) =
      parSplitGo (fuel - l.length) (l.reverse ++ part) r := by
  intro l
  induction l with
  | nil => intro _ fuel _ part r; simp
  | cons c l1 ih =>
    intro hnl fuel hlen part r
    cases fuel with
    | zero => simp at hlen
    | succ f =>
      have hc : ¬(c = '\n') := noNl_mem hnl (by simp)
      have hnl1 : noNl l1 = true := by
        rw [noNl, List.all_cons, Bool.and_eq_true] at hnl
        exact hnl.2
      rw [List.cons_append, parSplitGo, matchSep_not_nl _ hc]
      have hrec := ih hnl1 f (by simpa using hlen) (c :: part) r
      rw [show (match (none : Option (List Char)) with
        | some rest => part.reverse :: parSplitGo f [] rest
        | none => parSplitGo f (c :: part) (l1 ++ r)) =
          parSplitGo f (c :: part) (l1 ++ r) from rfl]
      rw [hrec]
      simp [Nat.succ_sub_succ]

theorem matchSep_some :
    ∀ (m : Nat) (rs : List (List Char)), rs.length ≤ m → ∀ (w1 : List Char),
    wsOnly w1 = true → (∀ r ∈ rs, noNl r = true) → rs ≠ [] →
    matchSep ('\n' :: joinLines (w1 :: rs)) = some (joinLines (dropSepAux rs)) := by
  intro m
  induction m with
  | zero =>
    intro rs hlen w1 _ _ hne
    cases rs with
    | nil => exact absurd rfl hne
    | cons x xs => simp at hlen
  | succ m ih =>
    intro rs hlen w1 hw1 hnl hne
    cases rs with
    | nil => exact absurd rfl hne
    | cons x ys =>
      cases ys with
      | nil =>
        have hT : joinLines (w1 :: [x]) = w1 ++ '\n' :: x := rfl
        rw [hT, matchSep_terminal hw1 (noNl_takeWhile (hnl x (by simp)) isWs)]
        rw [show dropSepAux [x] = [x] from rfl]
        rfl
      | cons y ys2 =>
        by_cases hx : wsOnly x = true
        · rw [matchSep_peel hw1 hx (by simp)]
          rw [ih (y :: ys2) (by simp at hlen ⊢; omega) x hx
            (fun r hr => hnl r (by simp [hr])) (by simp)]
          rw [show dropSepAux (x :: y :: ys2) = dropSepAux (y :: ys2) from by
            rw [dropSepAux, if_pos hx]]
        · have hx2 : wsOnly x = false := by
            cases h2 : wsOnly x with
            | true => exact absurd h2 hx
            | false => rfl
          have hT : joinLines (w1 :: x :: y :: ys2) =
              w1 ++ '\n' :: joinLines (x :: y :: ys2) := rfl
          have hlw : noNl ((joinLines (x :: y :: ys2)).takeWhile isWs) = true := by
            rw [show joinLines (x :: y :: ys2) =
              x ++ '\n' :: joinLines (y :: ys2) from rfl]
            obtain ⟨c, hcm, hcw⟩ : ∃ c ∈ x, isWs c = false := by
              rw [wsOnly, List.all_eq_false] at hx2
              obtain ⟨c, hcm, hcw⟩ := hx2
              exact ⟨c, hcm, by simpa using hcw⟩
            rw [takeWhile_stop x _ ⟨c, hcm, hcw⟩]
            exact noNl_takeWhile (hnl x (by simp)) isWs
          rw [hT, matchSep_terminal hw1 hlw]
          rw [show dropSepAux (x :: y :: ys2) = x :: y :: ys2 from by
            rw [dropSepAux, if_neg hx]]

theorem blocksGo_sep_dropSep :
    ∀ (rs : List (List Char)) (d1 : List Char) (drest : List (List Char)),
    dropSepAux rs = d1 :: drest →
    blocksGo true rs [] = blocksGo false drest [d1] := by
  intro rs
  induction rs with
  | nil => intro d1 drest h; simp [dropSepAux] at h
  | cons x ys ih =>
    intro d1 drest h
    cases ys with
    | nil =>
      rw [show dropSepAux [x] = [x] from rfl] at h
      simp only [List.cons.injEq] at h
      obtain ⟨rfl, rfl⟩ := h
      rfl
    | cons y ys2 =>
      rw [dropSepAux] at h
      split at h
      · next hws =>
        rw [show blocksGo true (x :: y :: ys2) [] = blocksGo true (y :: ys2) []
          from by simp only [blocksGo]; rw [if_pos hws]]
        exact ih d1 drest h
      · next hws =>
        simp only [List.cons.injEq] at h
        obtain ⟨rfl, rfl⟩ := h
        simp only [blocksGo]
        rw [if_neg hws]

theorem parSplitGo_blocksGo :
    ∀ (n : Nat), ∀ (rest : List (List Char)), rest.length ≤ n →
    ∀ (l : List Char) (cur : List (List Char)) (fuel : Nat),
    noNl l = true → (∀ r ∈ rest, noNl r = true) →
    (joinLines (l :: rest)).length < fuel →
    parSplitGo fuel ((curChars cur).reverse) (joinLines (l :: rest)) =
      blocksGo false rest (cur ++ [l]) := by
  intro n
  induction n using Nat.strong_induction_on with
  | _ n ih =>
    intro rest hrn l cur fuel hnl hrest hfuel
    cases rest with
    | nil =>
      have hfl : l.length < fuel := by
        rw [show joinLines [l] = l from rfl] at hfuel
        exact hfuel
      have hacc := parSplitGo_accum l hnl fuel (by omega)
        ((curChars cur).reverse) []
      rw [List.append_nil] at hacc
      rw [show joinLines [l] = l from rfl, hacc]
      obtain ⟨g, hg⟩ : ∃ g, fuel - l.length = g + 1 :=
        ⟨fuel - l.length - 1, by omega⟩
      rw [hg, parSplitGo]
      rw [show blocksGo false [] (cur ++ [l]) = [joinLines (cur ++ [l])] from rfl]
      rw [joinLines_append_one]
      simp
    | cons r1 rs =>
      have hJ : joinLines (l :: r1 :: rs) = l ++ '\n' :: joinLines (r1 :: rs) := rfl
      have hflen : l.length + 1 + (joinLines (r1 :: rs)).length < fuel + 0 := by
        rw [hJ] at hfuel
        simp only [List.length_append, List.length_cons] at hfuel
        omega
      have hacc := parSplitGo_accum l hnl fuel (by omega)
        ((curChars cur).reverse) ('\n' :: joinLines (r1 :: rs))
      rw [hJ, hacc]
      obtain ⟨g, hg⟩ : ∃ g, fuel - l.length = g + 1 :=
        ⟨fuel - l.length - 1, by omega⟩
      have hgbound : (joinLines (r1 :: rs)).length < g := by omega
      rw [hg, parSplitGo]
      by_cases hcase : wsOnly r1 = true ∧ rs ≠ []
      · obtain ⟨hws, hrsne⟩ := hcase
        have hms := matchSep_some rs.length rs le_rfl r1 hws
          (fun r hr => hrest r (by simp [hr])) hrsne
        obtain ⟨d1, drest, hD⟩ : ∃ d1 drest, dropSepAux rs = d1 :: drest := by
          cases hDD : dropSepAux rs with
          | nil => exact absurd hDD (dropSepAux_ne_nil rs hrsne)
          | cons a b => exact ⟨a, b, rfl⟩
        rw [hms]
        rw [show (match some (joinLines (dropSepAux rs)) with
          | some rest =>
            (l.reverse ++ (curChars cur).reverse).reverse ::
              parSplitGo g [] rest
          | none =>
            parSplitGo g ('\n' :: (l.reverse ++ (curChars cur).reverse))
              (joinLines (r1 :: rs))) =
          (l.reverse ++ (curChars cur).reverse).reverse ::
            parSplitGo g [] (joinLines (dropSepAux rs)) from rfl]
        have hd1nl : noNl d1 = true := by
          have : d1 ∈ dropSepAux rs := by rw [hD]; simp
          exact hrest d1 (by simp [dropSepAux_subset rs d1 this])
        have hdrestnl : ∀ r ∈ drest, noNl r = true := by
          intro r hr
          have : r ∈ dropSepAux rs := by rw [hD]; simp [hr]
          exact hrest r (by simp [dropSepAux_subset rs r this])
        have hdlen : drest.length < n := by
          have h1 := dropSepAux_length_le rs
          rw [hD] at h1
          simp only [List.length_cons] at h1 hrn
          have h2 : 1 ≤ rs.length := by
            cases rs with
            | nil => exact absurd rfl hrsne
            | cons a b => simp
          omega
        have hjlen : (joinLines (d1 :: drest)).length < g := by
          have h1 := joinLines_dropSepAux_le rs
          rw [hD] at h1
          have h2 : (joinLines (r1 :: rs)).length =
              r1.length + 1 + (joinLines rs).length := by
            cases rs with
            | nil => exact absurd rfl hrsne
            | cons a b =>
              simp [show joinLines (r1 :: a :: b) =
                r1 ++ '\n' :: joinLines (a :: b) from rfl]
              omega
          have h3 : (joinLines rs).length ≥ (joinLines (d1 :: drest)).length := h1
          omega
        have hrec := ih drest.length (by omega) drest le_rfl d1 [] g
          hd1nl hdrestnl hjlen
        rw [show ((curChars ([] : List (List Char))).reverse) = [] from rfl] at hrec
        rw [hD, hrec]
        rw [show ([] : List (List Char)) ++ [d1] = [d1] from rfl]
        obtain ⟨r2, rs2, rfl⟩ : ∃ r2 rs2, rs = r2 :: rs2 := by
          cases rs with
          | nil => exact absurd rfl hrsne
          | cons a b => exact ⟨a, b, rfl⟩
        rw [show blocksGo false (r1 :: r2 :: rs2) (cur ++ [l]) =
          joinLines (cur ++ [l]) :: blocksGo true (r2 :: rs2) [] from by
            simp only [blocksGo]; rw [if_pos hws]]
        rw [blocksGo_sep_dropSep (r2 :: rs2) d1 drest hD]
        rw [joinLines_append_one]
        simp
      · have hnone : matchSep ('\n' :: joinLines (r1 :: rs)) = none := by
          refine matchSep_none_content (hrest r1 (by simp)) ?_
          by_cases hws : wsOnly r1 = true
          · right
            by_contra hrs
            exact hcase ⟨hws, hrs⟩
          · left
            cases h2 : wsOnly r1 with
            | true => exact absurd h2 hws
            | false => rfl
        rw [hnone]
        rw [show (match (none : Option (List Char)) with
          | some rest =>
            (l.reverse ++ (curChars cur).reverse).reverse ::
              parSplitGo g [] rest
          | none =>
            parSplitGo g ('\n' :: (l.reverse ++ (curChars cur).reverse))
              (joinLines (r1 :: rs))) =
          parSplitGo g ('\n' :: (l.reverse ++ (curChars cur).reverse))
            (joinLines (r1 :: rs)) from rfl]
        have hpart : (curChars (cur ++ [l])).reverse =
            '\n' :: (l.reverse ++ (curChars cur).reverse) := by
          have h1 : curChars (cur ++ [l]) = joinLines (cur ++ [l]) ++ ['\n'] := by
            cases cur <;> rfl
          rw [h1, joinLines_append_one]
          simp
        rw [← hpart]
        have hrec := ih rs.length (by simp at hrn; omega) rs le_rfl r1
          (cur ++ [l]) g (hrest r1 (by simp))
          (fun r hr => hrest r (by simp [hr])) hgbound
        rw [hrec]
        cases rs with
        | nil => rfl
        | cons r2 rs2 =>
          have hws2 : ¬(wsOnly r1 = true) := by
            intro hws
            exact hcase ⟨hws, by simp⟩
          rw [show blocksGo false (r1 :: r2 :: rs2) (cur ++ [l]) =
            blocksGo false (r2 :: rs2) ((cur ++ [l]) ++ [r1]) from by
              simp only [blocksGo]; rw [if_neg hws2]]

/-- The Qt paragraph split agrees with the blank-line block structure of
the lines. -/
theorem qtSplitPar_specBlocks (cs : List Char) :
    qtSplitPar cs = specBlocks (splitLines cs) := by
  obtain ⟨l, ls, hsp⟩ : ∃ l ls, splitLines cs = l :: ls := by
    cases h : splitLines cs with
    | nil => exact absurd h (splitLines_ne_nil cs)
    | cons a b => exact ⟨a, b, rfl⟩
  have hcs : cs = joinLines (l :: ls) := by
    rw [← hsp, joinLines_splitLines]
  have hnl : ∀ x ∈ l :: ls, noNl x = true := by
    rw [← hsp]
    exact noNl_splitLines cs
  rw [hsp, qtSplitPar]
  rw [show specBlocks (l :: ls) = blocksGo false ls [l] from rfl]
  have := parSplitGo_blocksGo ls.length ls le_rfl l [] (cs.length + 1)
    (hnl l (by simp)) (fun r hr => hnl r (by simp [hr]))
    (by rw [← hcs]; omega)
  rw [show ((curChars ([] : List (List Char))).reverse) = [] from rfl] at this
  rw [show ([] : List (List Char)) ++ [l] = [l] from rfl] at this
  rw [← hcs] at this
  exact this

theorem hashGet_hashSet_self (h : List (String × Chapter)) (k : String)
    (v : Chapter) : hashGet (hashSet h k v) k = some v := by
  induction h with
  | nil => simp [hashSet, hashGet]
  | cons kv t ih =>
    rw [hashSet]
    split
    · rw [hashGet]
      simp
    · next hne =>
      rw [hashGet, if_neg hne]
      exact ih

theorem hashGet_hashSet_ne (h : List (String × Chapter)) (k k2 : String)
    (v : Chapter) (hne : k2 ≠ k) :
    hashGet (hashSet h k v) k2 = hashGet h k2 := by
  induction h with
  | nil =>
    rw [hashSet, hashGet, hashGet]
    rw [if_neg (by simpa using fun hEq => hne hEq.symm), hashGet]
  | cons kv t ih =>
    rw [hashSet]
    split
    · next hEq =>
      rw [hashGet, hashGet, if_neg (by simpa using fun h2 => hne h2.symm)]
      rw [if_neg (by rw [hEq]; simpa using fun h2 => hne h2.symm)]
    · next hne2 =>
      rw [hashGet, hashGet]
      split
      · rfl
      · exact ih

theorem hashContains_of_get {h : List (String × Chapter)} {k : String}
    {ch : Chapter} (hg : hashGet h k = some ch) : hashContains h k = true := by
  induction h with
  | nil => simp [hashGet] at hg
  | cons kv t ih =>
    rw [hashGet] at hg
    rw [hashContains, List.any_cons]
    split at hg
    · next hEq => simp [hEq]
    · have := ih hg
      rw [hashContains] at this
      simp [this]

theorem hashGet_of_contains {h : List (String × Chapter)} {k : String}
    (hc : hashContains h k = true) : ∃ ch, hashGet h k = some ch := by
  induction h with
  | nil => simp [hashContains] at hc
  | cons kv t ih =>
    rw [hashContains, List.any_cons, Bool.or_eq_true] at hc
    rw [hashGet]
    by_cases hEq : kv.1 = k
    · rw [if_pos hEq]
      exact ⟨kv.2, rfl⟩
    · rw [if_neg hEq]
      cases hc with
      | inl h1 => simp [hEq] at h1
      | inr h2 => exact ih h2

theorem hashContains_hashSet_self (h : List (String × Chapter)) (k : String)
    (v : Chapter) : hashContains (hashSet h k v) k = true :=
  hashContains_of_get (hashGet_hashSet_self h k v)

theorem noNl_render_of_wf {c : List Inline} (h : wfInlines c = true) :
    noNl (renderInlines c) = true := by
  induction c with
  | nil => rfl
  | cons x xs ih =>
    have hx := wfInlines_head h
    have hxs := wfInlines_tail h
    rw [show renderInlines (x :: xs) = renderInline x ++ renderInlines xs
      from rfl]
    refine noNl_append ?_ (ih hxs)
    have hcontent : ∀ s : List Char,
        (!s.isEmpty && markerFree s && noNl s) = true → noNl s = true := by
      intro s hs
      simp only [Bool.and_eq_true] at hs
      exact hs.2
    cases x with
    | text s => exact hcontent s hx
    | bold s =>
      have hs := hcontent s hx
      rw [renderInline, noNl, List.all_cons, List.all_cons, List.all_append]
      rw [noNl] at hs
      simp [hs]
    | italic s =>
      have hs := hcontent s hx
      rw [renderInline, noNl, List.all_cons, List.all_append]
      rw [noNl] at hs
      simp [hs]
    | strike s =>
      have hs := hcontent s hx
      rw [renderInline, noNl, List.all_cons, List.all_cons, List.all_append]
      rw [noNl] at hs
      simp [hs]
    | code s =>
      have hs := hcontent s hx
      rw [renderInline, noNl, List.all_cons, List.all_append]
      rw [noNl] at hs
      simp only [hs, Bool.and_true, Bool.true_and, Bool.and_self]
      simp only [List.all_cons, List.all_nil, Bool.and_true]
      decide

theorem stableB_of_wfBlock {b : Block} (h : wfBlock b = true) : StableB b := by
  cases b with
  | heading n c =>
    rw [wfBlock] at h
    simp only [Bool.and_eq_true, decide_eq_true_eq] at h
    exact ⟨h.1.1, h.1.2, parseInlines_renderInlines h.2, noNl_render_of_wf h.2⟩
  | para c =>
    rw [wfBlock] at h
    simp only [Bool.and_eq_true, decide_eq_true_eq] at h
    exact ⟨parseInlines_renderInlines h.1, noNl_render_of_wf h.1, h.2⟩
  | codeBlock ls =>
    rw [wfBlock] at h
    rw [List.all_eq_true] at h
    intro l hl
    have := h l hl
    simp only [Bool.and_eq_true, Bool.not_eq_true', decide_eq_false_iff_not] at this
    exact this
  | bullet items =>
    rw [wfBlock] at h
    simp only [Bool.and_eq_true, Bool.not_eq_true'] at h
    refine ⟨?_, ?_⟩
    · intro hEq
      rw [hEq] at h
      simp at h
    · intro it hit
      have := List.all_eq_true.mp h.2 it hit
      exact ⟨parseInlines_renderInlines this, noNl_render_of_wf this⟩
  | ordered items =>
    rw [wfBlock] at h
    simp only [Bool.and_eq_true, Bool.not_eq_true'] at h
    refine ⟨?_, ?_⟩
    · intro hEq
      rw [hEq] at h
      simp at h
    · intro it hit
      have := List.all_eq_true.mp h.2 it hit
      exact ⟨parseInlines_renderInlines this, noNl_render_of_wf this⟩
  | quote c =>
    rw [wfBlock] at h
    exact ⟨parseInlines_renderInlines h, noNl_render_of_wf h⟩
  | hrule => trivial

theorem Chapter.setContent_content (c : String) (ch : Chapter) :
    ( ch.setContent c).content = c := by
  rw [Chapter.setContent]
  split
  · next h => exact h
  · rfl

theorem Chapter.setContent_self (ch : Chapter) :
    ch.setContent ch.content = ch := by
  rw [Chapter.setContent, if_pos rfl]

theorem hashSet_get_self {h : List (String × Chapter)} {k : String}
    {v : Chapter} (hg : hashGet h k = some v) : hashSet h k v = h := by
  induction h with
  | nil => simp [hashGet] at hg
  | cons kv t ih =>
    rw [hashGet] at hg
    rw [hashSet]
    split
    · next hEq =>
      rw [if_pos hEq] at hg
      simp only [Option.some.injEq] at hg
      subst hg
      obtain ⟨k1, v1⟩ := kv
      simp only at hEq
      subst hEq
      rfl
    · next hne =>
      rw [if_neg hne] at hg
      rw [ih hg]

theorem contains_false_of_get_none {h : List (String × Chapter)} {k : String}
    (hg : hashGet h k = none) : hashContains h k = false := by
  cases hc : hashContains h k with
  | false => rfl
  | true =>
    obtain ⟨ch, hch⟩ := hashGet_of_contains hc
    rw [hg] at hch
    simp at hch

theorem saveCurrentChapter_id (mw : MainWindow) :
    (saveCurrentChapter mw).currentChapterId = mw.currentChapterId := by
  rw [saveCurrentChapter]
  split
  · rfl
  · split
    · rfl
    · rfl

theorem saveCurrentChapter_panel (mw : MainWindow) :
    (saveCurrentChapter mw).writingPanel = mw.writingPanel := by
  rw [saveCurrentChapter]
  split
  · rfl
  · split
    · rfl
    · rfl

theorem saveCurrentChapter_noop_of_empty {mw : MainWindow}
    (h : mw.currentChapterId = "") : saveCurrentChapter mw = mw := by
  rw [saveCurrentChapter, if_pos (Or.inl h)]

theorem saveCurrentChapter_chapters {mw : MainWindow} {ch : Chapter}
    (hid : ¬(mw.currentChapterId = ""))
    (hg : hashGet mw.chapters mw.currentChapterId = some ch) :
    (saveCurrentChapter mw).chapters =
      hashSet mw.chapters mw.currentChapterId
        (ch.setContent (getContentMarkdown mw.writingPanel)) := by
  rw [saveCurrentChapter]
  rw [if_neg (by
    intro hor
    cases hor with
    | inl h1 => exact hid h1
    | inr h2 => rw [hashContains_of_get hg] at h2; simp at h2)]
  rw [hg]

theorem saveCurrentChapter_get_other {mw : MainWindow} {k : String}
    (hk : k ≠ mw.currentChapterId) :
    hashGet (saveCurrentChapter mw).chapters k = hashGet mw.chapters k := by
  rw [saveCurrentChapter]
  split
  · rfl
  · split
    · rfl
    · exact hashGet_hashSet_ne _ _ _ _ hk

theorem saveCurrentChapter_get_none {mw : MainWindow} {k : String}
    (hk : hashGet mw.chapters k = none) :
    hashGet (saveCurrentChapter mw).chapters k = none := by
  by_cases hEq : k = mw.currentChapterId
  · rw [saveCurrentChapter]
    rw [if_pos ?_]
    · exact hk
    · right
      rw [← hEq]
      exact contains_false_of_get_none hk
  · rw [saveCurrentChapter_get_other hEq]
    exact hk

theorem empty_markdown_roundtrip :
    MarkdownConverter.htmlToMarkdown (MarkdownConverter.markdownToHtml "") = "" := rfl

theorem setContentMarkdown_mode (s : String) (wp : WritingPanel) :
    (setContentMarkdown s wp).currentMode = wp.currentMode := by
  obtain ⟨m, t, md, rt⟩ := wp
  cases m
  · rfl
  · rfl

theorem getContentMarkdown_set_empty (wp : WritingPanel) :
    getContentMarkdown (setContentMarkdown "" wp) = "" := by
  obtain ⟨m, t, md, rt⟩ := wp
  cases m
  · rfl
  · exact empty_markdown_roundtrip

theorem setTitle_fresh (id : String) (hid : ¬(id = "")) :
    Chapter.setTitle id { title := "", content := "" } =
      { title := id, content := "" } := by
  rw [Chapter.setTitle]
  rw [if_neg (fun h => hid (Eq.symm h))]

theorem saveCurrentChapter_record (chs : List (String × Chapter))
    (id : String) (wp : WritingPanel) (hid : ¬(id = "")) (ch : Chapter)
    (hg : hashGet chs id = some ch)
    (hcontent : getContentMarkdown wp = ch.content) :
    saveCurrentChapter
        { chapters := chs, currentChapterId := id, writingPanel := wp } =
      { chapters := chs, currentChapterId := id, writingPanel := wp } := by
  have hcond : ¬(id = "" ∨ hashContains chs id = false) := by
    intro hor
    cases hor with
    | inl h1 => exact hid h1
    | inr h2 => rw [hashContains_of_get hg] at h2; simp at h2
  simp only [saveCurrentChapter]
  rw [if_neg hcond, hg]
  simp only [hcontent, Chapter.setContent_self]
  rw [hashSet_get_self hg]

theorem saveCurrentChapter_get_self (mw : MainWindow)
    (hid : ¬(mw.currentChapterId = "")) {ch : Chapter}
    (hg : hashGet mw.chapters mw.currentChapterId = some ch) :
    hashGet (saveCurrentChapter mw).chapters mw.currentChapterId =
      some (Chapter.setContent (getContentMarkdown mw.writingPanel) ch) := by
  rw [saveCurrentChapter_chapters hid hg]
  exact hashGet_hashSet_self _ _ _

theorem onStructureItemSelected_md {mw : MainWindow} {id : String}
    (hm : mw.writingPanel.currentMode = .MarkdownMode) (hid : ¬(id = "")) :
    onStructureItemSelected id mw =
      match hashGet (saveCurrentChapter mw).chapters id with
      | some ch =>
        { chapters := (saveCurrentChapter mw).chapters,
          currentChapterId := id,
          writingPanel :=
            { currentMode := .MarkdownMode,
              titleLabel := ch.title,
              markdownEditor := ch.content,
              richTextEditor := mw.writingPanel.richTextEditor } }
      | none =>
        { chapters := hashSet (saveCurrentChapter mw).chapters id
            { title := id, content := "" },
          currentChapterId := id,
          writingPanel :=
            { currentMode := .MarkdownMode,
              titleLabel := id,
              markdownEditor := "",
              richTextEditor := mw.writingPanel.richTextEditor } } := by
  cases hg : hashGet (saveCurrentChapter mw).chapters id with
  | some ch0 =>
    have hc : hashContains (saveCurrentChapter mw).chapters id = true :=
      hashContains_of_get hg
    simp only [onStructureItemSelected, onContentChanged,
      saveCurrentChapter_panel, hc, if_true, hg, Option.getD_some,
      setPanelTitle, setContentMarkdown, hm]
    rw [saveCurrentChapter_record _ _
      { currentMode := .MarkdownMode, titleLabel := ch0.title,
        markdownEditor := ch0.content,
        richTextEditor := mw.writingPanel.richTextEditor } hid ch0 hg rfl]
  | none =>
    have hc : hashContains (saveCurrentChapter mw).chapters id = false :=
      contains_false_of_get_none hg
    simp only [onStructureItemSelected, onContentChanged,
      saveCurrentChapter_panel, hc, Bool.false_eq_true, if_false, hg,
      setTitle_fresh id hid, hashGet_hashSet_self, Option.getD_some,
      setPanelTitle, setContentMarkdown, hm]
    rw [saveCurrentChapter_record _ _
      { currentMode := .MarkdownMode, titleLabel := id,
        markdownEditor := "",
        richTextEditor := mw.writingPanel.richTextEditor } hid
      { title := id, content := "" } (hashGet_hashSet_self _ _ _) rfl]

theorem onStructureItemSelected_id (id : String) (mw : MainWindow) :
    (onStructureItemSelected id mw).currentChapterId = id := by
  simp only [onStructureItemSelected, onContentChanged, saveCurrentChapter_id]
  split
  · rfl
  · rfl

theorem onStructureItemSelected_get_other {mw : MainWindow}
    {id k : String} (hk : ¬(k = id)) :
    hashGet (onStructureItemSelected id mw).chapters k =
      hashGet (saveCurrentChapter mw).chapters k := by
  simp only [onStructureItemSelected, onContentChanged]
  split
  · rw [saveCurrentChapter_get_other hk]
  · rw [saveCurrentChapter_get_other hk]
    exact hashGet_hashSet_ne _ _ _ _ hk

theorem onStructureItemSelected_get {mw : MainWindow} {id : String}
    (hid : ¬(id = "")) :
    (hashGet (saveCurrentChapter mw).chapters id = none →
      hashGet (onStructureItemSelected id mw).chapters id =
        some { title := id, content := "" }) ∧
    ∃ ch, hashGet (onStructureItemSelected id mw).chapters id = some ch := by
  cases hg : hashGet (saveCurrentChapter mw).chapters id with
  | some ch0 =>
    have hc : hashContains (saveCurrentChapter mw).chapters id = true :=
      hashContains_of_get hg
    simp only [onStructureItemSelected, onContentChanged,
      saveCurrentChapter_panel, hc, if_true, hg, Option.getD_some]
    constructor
    · intro hnone
      simp at hnone
    · exact ⟨_, saveCurrentChapter_get_self _ hid hg⟩
  | none =>
    have hc : hashContains (saveCurrentChapter mw).chapters id = false :=
      contains_false_of_get_none hg
    simp only [onStructureItemSelected, onContentChanged,
      saveCurrentChapter_panel, hc, Bool.false_eq_true, if_false, hg,
      setTitle_fresh id hid, hashGet_hashSet_self, Option.getD_some]
    rw [saveCurrentChapter_record _ _ _ hid { title := id, content := "" }
      (hashGet_hashSet_self _ _ _) (getContentMarkdown_set_empty _)]
    constructor
    · intro h
      exact hashGet_hashSet_self _ _ _
    · exact ⟨_, hashGet_hashSet_self _ _ _⟩

theorem getContentMarkdown_md {wp : WritingPanel}
    (h : wp.currentMode = .MarkdownMode) :
    getContentMarkdown wp = wp.markdownEditor := by
  obtain ⟨m, t, md, rt⟩ := wp
  cases m
  · rfl
  · exact absurd h (by simp)

theorem getContentMarkdown_rich {wp : WritingPanel}
    (h : wp.currentMode = .RichTextMode) :
    getContentMarkdown wp =
      MarkdownConverter.htmlToMarkdown wp.richTextEditor := by
  obtain ⟨m, t, md, rt⟩ := wp
  cases m
  · exact absurd h (by simp)
  · rfl

theorem Chapter.setContent_of_eq {c : String} {ch : Chapter}
    (h : ch.content = c) : ch.setContent c = ch := by
  rw [Chapter.setContent, if_pos h]

theorem saveCurrentChapter_store (chs : List (String × Chapter))
    (cid : String) (wp : WritingPanel) (hid : ¬(cid = "")) (ch : Chapter)
    (hg : hashGet chs cid = some ch) :
    saveCurrentChapter
        { chapters := chs, currentChapterId := cid, writingPanel := wp } =
      { chapters :=
          hashSet chs cid (Chapter.setContent (getContentMarkdown wp) ch),
        currentChapterId := cid, writingPanel := wp } := by
  have hcond : ¬(cid = "" ∨ hashContains chs cid = false) := by
    intro hor
    cases hor with
    | inl h1 => exact hid h1
    | inr h2 => rw [hashContains_of_get hg] at h2; simp at h2
  simp only [saveCurrentChapter]
  rw [if_neg hcond, hg]

theorem onStructureItemSelected_facts {mw : MainWindow} {id : String}
    (hm : mw.writingPanel.currentMode = .MarkdownMode) (hid : ¬(id = "")) :
    ∃ ch : Chapter,
      (onStructureItemSelected id mw).writingPanel.currentMode =
        EditorMode.MarkdownMode ∧
      (onStructureItemSelected id mw).writingPanel.markdownEditor =
        ch.content ∧
      (onStructureItemSelected id mw).currentChapterId = id ∧
      hashGet (onStructureItemSelected id mw).chapters id = some ch ∧
      (∀ k, ¬(k = id) →
        hashGet (onStructureItemSelected id mw).chapters k =
          hashGet (saveCurrentChapter mw).chapters k) ∧
      (∀ c0, hashGet (saveCurrentChapter mw).chapters id = some c0 →
        ch = c0) := by
  cases hg : hashGet (saveCurrentChapter mw).chapters id with
  | some c =>
    refine ⟨c, ?_⟩
    rw [onStructureItemSelected_md hm hid, hg]
    exact ⟨rfl, rfl, rfl, hg, fun k hk => rfl,
      fun c0 h0 => (Option.some.injEq _ _).mp h0⟩
  | none =>
    refine ⟨{ title := id, content := "" }, ?_⟩
    rw [onStructureItemSelected_md hm hid, hg]
    exact ⟨rfl, rfl, rfl, hashGet_hashSet_self _ _ _,
      fun k hk => hashGet_hashSet_ne _ _ _ _ hk,
      fun c0 h0 => absurd h0 (by simp)⟩

theorem editMarkdownText_facts {mw : MainWindow}
    (hm : mw.writingPanel.currentMode = .MarkdownMode)
    (hid : ¬(mw.currentChapterId = "")) {ch : Chapter}
    (hg : hashGet mw.chapters mw.currentChapterId = some ch) (s : String) :
    (editMarkdownText s mw).currentChapterId = mw.currentChapterId ∧
    (editMarkdownText s mw).writingPanel.currentMode =
      EditorMode.MarkdownMode ∧
    (editMarkdownText s mw).writingPanel.markdownEditor = s ∧
    hashGet (editMarkdownText s mw).chapters mw.currentChapterId =
      some (Chapter.setContent s ch) ∧
    (∀ k, ¬(k = mw.currentChapterId) →
      hashGet (editMarkdownText s mw).chapters k = hashGet mw.chapters k) := by
  have hgc : getContentMarkdown
      ({ mw.writingPanel with markdownEditor := s } : WritingPanel) = s := by
    rw [getContentMarkdown_md
      (show ({ mw.writingPanel with markdownEditor := s } :
        WritingPanel).currentMode = EditorMode.MarkdownMode from hm)]
  rw [editMarkdownText, onContentChanged]
  rw [saveCurrentChapter_store mw.chapters mw.currentChapterId _ hid ch hg]
  rw [hgc]
  exact ⟨rfl, hm, rfl, hashGet_hashSet_self _ _ _,
    fun k hk => hashGet_hashSet_ne _ _ _ _ hk⟩

/-- C1: after every save of the active chapter (explicit flush or
autosave on a content change), the stored Chapter.content is the
canonical Markdown of the editor: `getContentMarkdown` returns the plain
buffer in Markdown mode and converts the rich buffer back to Markdown in
RichText mode, and `saveCurrentChapter` stores exactly that string. -/
theorem claim_C1_canonical_content_on_save :
    (∀ mw : MainWindow, ¬(mw.currentChapterId = "") →
      hashContains mw.chapters mw.currentChapterId = true →
      ∃ ch : Chapter,
        hashGet (saveCurrentChapter mw).chapters mw.currentChapterId =
          some ch ∧ ch.content = getContentMarkdown mw.writingPanel) ∧
    (∀ mw : MainWindow, onContentChanged mw = saveCurrentChapter mw) ∧
    (∀ wp : WritingPanel, wp.currentMode = EditorMode.MarkdownMode →
      getContentMarkdown wp = wp.markdownEditor) ∧
    (∀ wp : WritingPanel, wp.currentMode = EditorMode.RichTextMode →
      getContentMarkdown wp =
        MarkdownConverter.htmlToMarkdown wp.richTextEditor) := by
  refine ⟨?_, fun mw => rfl, fun wp h => getContentMarkdown_md h,
    fun wp h => getContentMarkdown_rich h⟩
  intro mw h1 h2
  obtain ⟨ch0, hg⟩ := hashGet_of_contains h2
  exact ⟨_, saveCurrentChapter_get_self mw h1 hg,
    Chapter.setContent_content _ _⟩

theorem claim_C1_canonical_content_on_save_witness :
    ¬(("a" : String) = "") ∧
    (∃ ch : Chapter, hashGet (saveCurrentChapter
        { chapters := [("a", { title := "t", content := "old" })],
          currentChapterId := "a",
          writingPanel :=
            { currentMode := EditorMode.MarkdownMode, titleLabel := "t",
              markdownEditor := "new",
              richTextEditor := [] } }).chapters "a" = some ch ∧
      ch.content = getContentMarkdown
        { currentMode := EditorMode.MarkdownMode, titleLabel := "t",
          markdownEditor := "new", richTextEditor := [] }) :=
  ⟨by decide, claim_C1_canonical_content_on_save.1 _ (by decide) (by decide)⟩

/-- C2: selecting a chapter id flushes the editor into the previously
active chapter, sets the active id, and loads the selected chapter; in
particular select A, edit, select B, select A restores the edited
content under id A (for nonempty distinct ids, in Markdown mode). -/
theorem claim_C2_flush_then_load :
    (∀ (mw : MainWindow) (id : String),
      (onStructureItemSelected id mw).currentChapterId = id) ∧
    (∀ (mw : MainWindow) (id : String),
      ¬(mw.currentChapterId = "") →
      hashContains mw.chapters mw.currentChapterId = true →
      ¬(mw.currentChapterId = id) →
      ∃ ch : Chapter,
        hashGet (onStructureItemSelected id mw).chapters
          mw.currentChapterId = some ch ∧
        ch.content = getContentMarkdown mw.writingPanel) ∧
    (∀ (mw : MainWindow) (A B edited : String),
      mw.writingPanel.currentMode = EditorMode.MarkdownMode →
      ¬(A = "") → ¬(B = "") → ¬(A = B) →
      getContentMarkdown (onStructureItemSelected A (onStructureItemSelected B
        (editMarkdownText edited
          (onStructureItemSelected A mw)))).writingPanel = edited ∧
      ∃ ch : Chapter,
        hashGet (onStructureItemSelected A (onStructureItemSelected B
          (editMarkdownText edited
            (onStructureItemSelected A mw)))).chapters A = some ch ∧
        ch.content = edited) := by
  refine ⟨fun mw id => onStructureItemSelected_id id mw, ?_, ?_⟩
  · intro mw id h1 h2 h3
    obtain ⟨ch0, hg⟩ := hashGet_of_contains h2
    refine ⟨Chapter.setContent (getContentMarkdown mw.writingPanel) ch0,
      ?_, Chapter.setContent_content _ _⟩
    rw [onStructureItemSelected_get_other h3]
    exact saveCurrentChapter_get_self mw h1 hg
  · intro mw A B edited hm hA hB hAB
    obtain ⟨chA, f1, f2, f3, f4, f5, f6⟩ := onStructureItemSelected_facts hm hA
    have hid1 : ¬((onStructureItemSelected A mw).currentChapterId = "") := by
      rw [f3]; exact hA
    have hg1 : hashGet (onStructureItemSelected A mw).chapters
        (onStructureItemSelected A mw).currentChapterId = some chA := by
      rw [f3]; exact f4
    obtain ⟨g1, g2, g3, g4, g5⟩ := editMarkdownText_facts f1 hid1 hg1 edited
    rw [f3] at g1 g4
    have hid2 : ¬((editMarkdownText edited
        (onStructureItemSelected A mw)).currentChapterId = "") := by
      rw [g1]; exact hA
    have hg2 : hashGet (editMarkdownText edited
        (onStructureItemSelected A mw)).chapters
        (editMarkdownText edited
          (onStructureItemSelected A mw)).currentChapterId =
        some (Chapter.setContent edited chA) := by
      rw [g1]; exact g4
    have hsave2 := saveCurrentChapter_get_self _ hid2 hg2
    rw [getContentMarkdown_md g2, g3, g1] at hsave2
    rw [Chapter.setContent_of_eq (Chapter.setContent_content edited chA)]
      at hsave2
    obtain ⟨chB, h1, h2, h3, h4, h5, h6⟩ := onStructureItemSelected_facts g2 hB
    have i4 : hashGet (onStructureItemSelected B (editMarkdownText edited
        (onStructureItemSelected A mw))).chapters A =
        some (Chapter.setContent edited chA) := by
      rw [h5 A hAB]
      exact hsave2
    obtain ⟨chF, k1, k2, k3, k4, k5, k6⟩ := onStructureItemSelected_facts h1 hA
    have hfr : hashGet (saveCurrentChapter (onStructureItemSelected B
        (editMarkdownText edited
          (onStructureItemSelected A mw)))).chapters A =
        some (Chapter.setContent edited chA) := by
      rw [saveCurrentChapter_get_other (by rw [h3]; exact hAB)]
      exact i4
    have hchF := k6 _ hfr
    constructor
    · rw [getContentMarkdown_md k1, k2, hchF, Chapter.setContent_content]
    · exact ⟨chF, k4, by rw [hchF, Chapter.setContent_content]⟩

theorem claim_C2_flush_then_load_witness :
    initMainWindow.writingPanel.currentMode = EditorMode.MarkdownMode ∧
    (getContentMarkdown (onStructureItemSelected "item_0"
        (onStructureItemSelected "item_1" (editMarkdownText "draft"
          (onStructureItemSelected "item_0" initMainWindow)))).writingPanel =
      "draft" ∧
     ∃ ch : Chapter, hashGet (onStructureItemSelected "item_0"
        (onStructureItemSelected "item_1" (editMarkdownText "draft"
          (onStructureItemSelected "item_0" initMainWindow)))).chapters
        "item_0" = some ch ∧ ch.content = "draft") :=
  ⟨rfl, claim_C2_flush_then_load.2.2 initMainWindow "item_0" "item_1" "draft"
    rfl (by decide) (by decide) (by decide)⟩

/-- C3: for Markdown built only from the supported constructs (the image
of well-formed rich documents), the conversion round-trip reproduces the
input exactly, and "Hello **world**" round-trips to itself. -/
theorem claim_C3_conversion_roundtrip :
    (∀ ds : RichDoc, wfDoc ds = true →
      richToMarkdown (markdownToRich (richToMarkdown ds)) =
        richToMarkdown ds) ∧
    richToMarkdown (markdownToRich "Hello **world**") = "Hello **world**" := by
  refine ⟨?_, rfl⟩
  intro ds h
  rw [markdownToRich_richToMarkdown
    (fun b hb => stableB_of_wfBlock (List.all_eq_true.mp h b hb))]

theorem claim_C3_conversion_roundtrip_witness :
    wfDoc [Block.heading 1 [Inline.text ['H', 'i']]] = true ∧
    richToMarkdown (markdownToRich (richToMarkdown
      [Block.heading 1 [Inline.text ['H', 'i']]])) =
      richToMarkdown [Block.heading 1 [Inline.text ['H', 'i']]] :=
  ⟨by decide, claim_C3_conversion_roundtrip.1 _ (by decide)⟩

/-- C4: setEditorMode with the current mode is a no-op emitting nothing;
with the other mode it converts the live buffer (Markdown to rich via
markdownToHtml, rich to Markdown via htmlToMarkdown), updates the mode
and emits modeChanged; the initial mode is Markdown. -/
theorem claim_C4_mode_switch_semantics :
    (∀ wp : WritingPanel, setEditorMode wp.currentMode wp = (wp, [])) ∧
    (∀ (wp : WritingPanel) (m : EditorMode), ¬(wp.currentMode = m) →
      ((setEditorMode m wp).1.currentMode = m ∧
       (setEditorMode m wp).2 = [PanelEvent.modeChanged m]) ∧
      (wp.currentMode = EditorMode.MarkdownMode →
        m = EditorMode.RichTextMode →
        (setEditorMode m wp).1.richTextEditor =
          MarkdownConverter.markdownToHtml wp.markdownEditor ∧
        (setEditorMode m wp).1.markdownEditor = wp.markdownEditor) ∧
      (wp.currentMode = EditorMode.RichTextMode →
        m = EditorMode.MarkdownMode →
        (setEditorMode m wp).1.markdownEditor =
          MarkdownConverter.htmlToMarkdown wp.richTextEditor ∧
        (setEditorMode m wp).1.richTextEditor = wp.richTextEditor)) ∧
    initWritingPanel.currentMode = EditorMode.MarkdownMode := by
  refine ⟨?_, ?_, rfl⟩
  · intro wp
    rw [setEditorMode, if_pos rfl]
  · intro wp m hne
    obtain ⟨mo, t, md, rt⟩ := wp
    cases mo with
    | MarkdownMode =>
      cases m with
      | MarkdownMode => exact absurd rfl hne
      | RichTextMode =>
        exact ⟨⟨rfl, rfl⟩, fun _ _ => ⟨rfl, rfl⟩,
          fun h _ => absurd h (by simp)⟩
    | RichTextMode =>
      cases m with
      | MarkdownMode =>
        exact ⟨⟨rfl, rfl⟩, fun h _ => absurd h (by simp),
          fun _ _ => ⟨rfl, rfl⟩⟩
      | RichTextMode => exact absurd rfl hne

theorem claim_C4_mode_switch_semantics_witness :
    ¬(initWritingPanel.currentMode = EditorMode.RichTextMode) ∧
    (((setEditorMode EditorMode.RichTextMode initWritingPanel).1.currentMode =
        EditorMode.RichTextMode ∧
      (setEditorMode EditorMode.RichTextMode initWritingPanel).2 =
        [PanelEvent.modeChanged EditorMode.RichTextMode]) ∧
     (initWritingPanel.currentMode = EditorMode.MarkdownMode →
      EditorMode.RichTextMode = EditorMode.RichTextMode →
      (setEditorMode EditorMode.RichTextMode
          initWritingPanel).1.richTextEditor =
        MarkdownConverter.markdownToHtml initWritingPanel.markdownEditor ∧
      (setEditorMode EditorMode.RichTextMode
          initWritingPanel).1.markdownEditor =
        initWritingPanel.markdownEditor) ∧
     (initWritingPanel.currentMode = EditorMode.RichTextMode →
      EditorMode.RichTextMode = EditorMode.MarkdownMode →
      (setEditorMode EditorMode.RichTextMode
          initWritingPanel).1.markdownEditor =
        MarkdownConverter.htmlToMarkdown initWritingPanel.richTextEditor ∧
      (setEditorMode EditorMode.RichTextMode
          initWritingPanel).1.richTextEditor =
        initWritingPanel.richTextEditor)) :=
  ⟨by decide, claim_C4_mode_switch_semantics.2.1 initWritingPanel
    EditorMode.RichTextMode (by decide)⟩

/-- C5: switching the mode away and back with no edits in between
returns to the original mode and leaves the live content equal up to the
converter-pair normalization. -/
theorem claim_C5_mode_switch_idempotent :
    ∀ (wp : WritingPanel) (X Y : EditorMode), wp.currentMode = X →
      (setEditorMode X (setEditorMode Y
        (setEditorMode X wp).1).1).1.currentMode = X ∧
      panelContentNormalized (setEditorMode X (setEditorMode Y
        (setEditorMode X wp).1).1).1 = panelContentNormalized wp := by
  intro wp X Y h
  obtain ⟨mo, t, md, rt⟩ := wp
  have h2 : mo = X := h
  subst h2
  cases mo with
  | MarkdownMode =>
    cases Y with
    | MarkdownMode => exact ⟨rfl, rfl⟩
    | RichTextMode =>
      refine ⟨rfl, ?_⟩
      show markdownToRich (MarkdownConverter.htmlToMarkdown
        (MarkdownConverter.markdownToHtml md)) = markdownToRich md
      exact markdownToRich_idem md
  | RichTextMode =>
    cases Y with
    | MarkdownMode =>
      refine ⟨rfl, ?_⟩
      show markdownToRich (richToMarkdown (MarkdownConverter.markdownToHtml
        (MarkdownConverter.htmlToMarkdown rt))) =
        markdownToRich (richToMarkdown rt)
      exact markdownToRich_idem (richToMarkdown rt)
    | RichTextMode => exact ⟨rfl, rfl⟩

theorem claim_C5_mode_switch_idempotent_witness :
    initWritingPanel.currentMode = EditorMode.MarkdownMode ∧
    ((setEditorMode EditorMode.MarkdownMode
        (setEditorMode EditorMode.RichTextMode
          (setEditorMode EditorMode.MarkdownMode
            initWritingPanel).1).1).1.currentMode =
      EditorMode.MarkdownMode ∧
     panelContentNormalized (setEditorMode EditorMode.MarkdownMode
        (setEditorMode EditorMode.RichTextMode
          (setEditorMode EditorMode.MarkdownMode
            initWritingPanel).1).1).1 =
       panelContentNormalized initWritingPanel) :=
  ⟨rfl, claim_C5_mode_switch_idempotent initWritingPanel
    EditorMode.MarkdownMode EditorMode.RichTextMode rfl⟩

/-- C6: selecting an id never fails to produce a stored chapter; an
absent id is created with title equal to the id and empty content, so
selecting "ch1" on the fresh window yields the chapter ("ch1", ""). -/
theorem claim_C6_lazy_chapter_creation :
    (∀ (mw : MainWindow) (id : String), ¬(id = "") →
      ∃ ch : Chapter,
        hashGet (onStructureItemSelected id mw).chapters id = some ch) ∧
    (∀ (mw : MainWindow) (id : String), ¬(id = "") →
      hashGet mw.chapters id = none →
      hashGet (onStructureItemSelected id mw).chapters id =
        some { title := id, content := "" }) ∧
    hashGet (onStructureItemSelected "ch1" initMainWindow).chapters "ch1" =
      some { title := "ch1", content := "" } := by
  refine ⟨?_, ?_, rfl⟩
  · intro mw id hid
    exact (onStructureItemSelected_get hid).2
  · intro mw id hid h0
    exact (onStructureItemSelected_get hid).1 (saveCurrentChapter_get_none h0)

theorem claim_C6_lazy_chapter_creation_witness :
    ¬(("ch1" : String) = "") ∧
    hashGet initMainWindow.chapters "ch1" = none ∧
    hashGet (onStructureItemSelected "ch1" initMainWindow).chapters "ch1" =
      some { title := "ch1", content := "" } :=
  ⟨by decide, rfl, claim_C6_lazy_chapter_creation.2.1 initMainWindow "ch1"
    (by decide) rfl⟩

/-- C7: the word count is the number of maximal non-whitespace runs and
the paragraph count is the number of non-empty blank-line-separated
blocks; "one two\n\nthree" yields words 3, paragraphs 2, average 3/2. -/
theorem claim_C7_statistics_definitions :
    (∀ s : String, (updateStats s).words = countRuns s.toList) ∧
    (∀ s : String, (updateStats s).paragraphs = specParagraphs s.toList) ∧
    ((updateStats "one two\n\nthree").words = 3 ∧
     (updateStats "one two\n\nthree").paragraphs = 2 ∧
     (updateStats "one two\n\nthree").avgWordsPerParagraph = 3 / 2) := by
  refine ⟨fun s => qtSplitWs_countRuns s.toList, fun s => ?_,
    by decide, by decide, ?_⟩
  · show ((qtSplitPar s.toList).filter (fun p => !p.isEmpty)).length =
      specParagraphs s.toList
    rw [qtSplitPar_specBlocks]
    rfl
  · have h1 : ((qtSplitWs "one two\n\nthree".toList).filter
        (fun p => !p.isEmpty)).length = 3 := by decide
    have h2 : ((qtSplitPar "one two\n\nthree".toList).filter
        (fun p => !p.isEmpty)).length = 2 := by decide
    simp only [updateStats]
    rw [h1, h2]
    norm_num

/-- C8: whenever the paragraph count is zero the average is the guarded
value 0 — the statistics never divide by zero. -/
theorem claim_C8_avg_guard :
    ∀ s : String, (updateStats s).paragraphs = 0 →
      (updateStats s).avgWordsPerParagraph = 0 := by
  intro s h
  simp only [updateStats] at h ⊢
  rw [if_neg (by rw [h]; exact lt_irrefl 0)]

theorem claim_C8_avg_guard_witness :
    (updateStats "").paragraphs = 0 ∧
    (updateStats "").avgWordsPerParagraph = 0 :=
  ⟨by decide, claim_C8_avg_guard "" (by decide)⟩

/-- C9: exporting with empty canonical editor content produces exactly
one user-visible warning and no file write. -/
theorem claim_C9_empty_export_guard :
    ∀ (mw : MainWindow) (chosenFile : Option String) (openOk : Bool),
      getContentMarkdown mw.writingPanel = "" →
      onExportMarkdown chosenFile openOk mw =
        [UiEffect.warning "Export Error" "No content to export."] := by
  intro mw chosenFile openOk h
  simp only [onExportMarkdown]
  rw [if_pos h]

theorem claim_C9_empty_export_guard_witness :
    getContentMarkdown initMainWindow.writingPanel = "" ∧
    onExportMarkdown none true initMainWindow =
      [UiEffect.warning "Export Error" "No content to export."] :=
  ⟨rfl, claim_C9_empty_export_guard initMainWindow none true rfl⟩

/-- C10: importing with no active chapter places the text only in the
editor, leaves the chapter store and the (absent) active id unchanged,
and a subsequent selection replaces the editor content with the selected
chapter's stored content. -/
theorem claim_C10_import_no_active_chapter :
    ∀ (mw : MainWindow) (fileText : String), mw.currentChapterId = "" →
      (∀ (chosenFile : Option String) (openOk : Bool),
        (onImportMarkdown chosenFile openOk fileText mw).1.chapters =
          mw.chapters ∧
        (onImportMarkdown chosenFile openOk fileText mw).1.currentChapterId =
          "") ∧
      (∀ p : String,
        (onImportMarkdown (some p) true fileText mw).1.writingPanel =
          setContentMarkdown fileText mw.writingPanel ∧
        (∀ id : String, ¬(id = "") →
          mw.writingPanel.currentMode = EditorMode.MarkdownMode →
          ∀ ch : Chapter, hashGet mw.chapters id = some ch →
            (onStructureItemSelected id (onImportMarkdown (some p) true
              fileText mw).1).writingPanel.markdownEditor = ch.content)) := by
  intro mw fileText hempty
  have himp : ∀ p : String, (onImportMarkdown (some p) true fileText mw).1 =
      { mw with writingPanel := setContentMarkdown fileText mw.writingPanel }
      := by
    intro p
    simp only [onImportMarkdown, Bool.not_true, Bool.false_eq_true, if_false,
      onContentChanged]
    exact saveCurrentChapter_noop_of_empty hempty
  constructor
  · intro chosenFile openOk
    cases chosenFile with
    | none => exact ⟨rfl, hempty⟩
    | some p =>
      cases openOk with
      | false => exact ⟨rfl, hempty⟩
      | true =>
        rw [himp p]
        exact ⟨rfl, hempty⟩
  · intro p
    constructor
    · rw [himp p]
    · intro id hid hm ch hch
      rw [himp p]
      have hmI :
          ({ mw with
              writingPanel := setContentMarkdown fileText mw.writingPanel } :
            MainWindow).writingPanel.currentMode =
            EditorMode.MarkdownMode := by
        show (setContentMarkdown fileText mw.writingPanel).currentMode =
          EditorMode.MarkdownMode
        rw [setContentMarkdown_mode]
        exact hm
      rw [onStructureItemSelected_md hmI hid]
      rw [saveCurrentChapter_noop_of_empty
        (show ({ mw with
              writingPanel := setContentMarkdown fileText mw.writingPanel } :
            MainWindow).currentChapterId = "" from hempty)]
      rw [show hashGet ({ mw with
              writingPanel := setContentMarkdown fileText mw.writingPanel } :
            MainWindow).chapters id = some ch from hch]

theorem claim_C10_import_no_active_chapter_witness :
    ({ chapters := [("item_1", { title := "T", content := "stored" })],
       currentChapterId := "", writingPanel := initWritingPanel } :
       MainWindow).currentChapterId = "" ∧
    (onStructureItemSelected "item_1" (onImportMarkdown (some "f.md") true
      "imported"
      { chapters := [("item_1", { title := "T", content := "stored" })],
        currentChapterId := "",
        writingPanel := initWritingPanel }).1).writingPanel.markdownEditor =
      "stored" :=
  ⟨rfl, ((claim_C10_import_no_active_chapter
      { chapters := [("item_1", { title := "T", content := "stored" })],
        currentChapterId := "", writingPanel := initWritingPanel }
      "imported" rfl).2 "f.md").2 "item_1" (by decide) rfl
    { title := "T", content := "stored" } rfl⟩

end Unbound
